import Mathlib

/-!
# mega-streaming: key derivation, counter-mode decryption and range fetching

A shallow embedding of `internal/crypto/decrypt.go` and
`internal/megaapi/downloader.go`.

Conventions of the embedding:
* a Go `[]byte` and a Go `string` are a `List Nat` of byte values (each `< 256`);
* a Go `int64` / `int` is an `Int`; where the source can overflow the wrap-around is
  written out with `wrapInt64`;
* a Go `(T, error)` result is an `Except _ T`, and an `Outcome` where the call can panic;
* library code the repository calls (`encoding/base64`, `crypto/aes`, `crypto/cipher`,
  `strconv`, `net/http`) is embedded from its documented behaviour.
-/

namespace MegaStreaming

/-! ## Errors -/

deriving instance DecidableEq for Except

/-- Errors of package `crypto`. `corruptInput` is `base64.CorruptInputError` (its position is
not recorded), `invalidKeyLength` is `errors.New("invalid key length")`, `keySize n` is
`aes.KeySizeError(n)` and `emptyChunk` is `fmt.Errorf("empty chunk")`. -/
inductive CryptoError where
  | corruptInput
  | invalidKeyLength
  | keySize (n : Nat)
  | emptyChunk
  deriving DecidableEq, Repr

/-! ## encoding/base64, `RawURLEncoding` -/

/-- The URL-safe alphabet `A-Z a-z 0-9 - _` as byte values. -/
def encodeURL : List Nat :=
  (List.range 26).map (· + 65) ++ (List.range 26).map (· + 97) ++
    (List.range 10).map (· + 48) ++ [45, 95]

/-- Alphabet lookup `enc.encode[v]`. -/
def encodeChar (v : Nat) : Nat := encodeURL.getD v 0

/-- The table `enc.decodeMap`: the index of `c` in the alphabet, `0xff` for every other byte. -/
def decodeMap (c : Nat) : Nat :=
  if encodeURL.indexOf c < 64 then encodeURL.indexOf c else 0xff

/-- `RawURLEncoding.EncodeToString`: three bytes give four characters; a remainder of one
byte gives two characters and of two bytes three characters; no padding is written. -/
def EncodeToString : List Nat → List Nat
  | a :: b :: c :: rest =>
      let val := a <<< 16 ||| b <<< 8 ||| c
      encodeChar (val >>> 18 &&& 0x3F) :: encodeChar (val >>> 12 &&& 0x3F) ::
        encodeChar (val >>> 6 &&& 0x3F) :: encodeChar (val &&& 0x3F) :: EncodeToString rest
  | [a, b] =>
      let val := a <<< 16 ||| b <<< 8
      [encodeChar (val >>> 18 &&& 0x3F), encodeChar (val >>> 12 &&& 0x3F),
        encodeChar (val >>> 6 &&& 0x3F)]
  | [a] =>
      let val := a <<< 16
      [encodeChar (val >>> 18 &&& 0x3F), encodeChar (val >>> 12 &&& 0x3F)]
  | [] => []

/-- The tail of `decodeQuantum`: `dbuf` holds the `dlen` six-bit values read (2, 3 or 4 of
them, the rest of the four slots zero); they are packed into 24 bits and the first
`dlen - 1` bytes are written. -/
def quantumBytes (dbuf : List Nat) : List Nat :=
  let val := dbuf.getD 0 0 <<< 18 ||| dbuf.getD 1 0 <<< 12 ||| dbuf.getD 2 0 <<< 6 |||
    dbuf.getD 3 0
  [(val >>> 16) % 256, (val >>> 8) % 256, val % 256].take (dbuf.length - 1)

/-- The loop of `Encoding.Decode` with `decodeQuantum` inlined, for an encoding without
padding and without strict mode. `dbuf` is the quantum being assembled. A byte of the
alphabet is appended to the quantum, which is flushed when it holds four values; `\n` and
`\r` are skipped; any other byte is a `CorruptInputError`. At the end of the input an empty
quantum is fine, a quantum of one value is corrupt, and one of two or three values gives
one or two bytes. -/
def decodeLoop : List Nat → List Nat → Except CryptoError (List Nat)
  | [], dbuf =>
      if dbuf.length = 0 then .ok []
      else if dbuf.length = 1 then .error .corruptInput
      else .ok (quantumBytes dbuf)
  | c :: src, dbuf =>
      if decodeMap c ≠ 0xff then
        if dbuf.length + 1 = 4 then
          match decodeLoop src [] with
          | .ok out => .ok (quantumBytes (dbuf ++ [decodeMap c]) ++ out)
          | .error e => .error e
        else decodeLoop src (dbuf ++ [decodeMap c])
      else if c = 10 ∨ c = 13 then decodeLoop src dbuf
      else .error .corruptInput

/-- `base64.RawURLEncoding.DecodeString`. -/
def DecodeString (s : List Nat) : Except CryptoError (List Nat) := decodeLoop s []

/-- The number of bytes of `s` that belong to the alphabet. -/
def alphabetCount : List Nat → Nat
  | [] => 0
  | c :: s => if decodeMap c ≠ 0xff then alphabetCount s + 1 else alphabetCount s

/-- The strings `RawURLEncoding` accepts: every byte is of the alphabet or is `\n` or `\r`
(which the decoder skips), and the alphabet bytes do not leave a lone character after the
last group of four. -/
def validRawURL (s : List Nat) : Prop :=
  (∀ c ∈ s, decodeMap c ≠ 0xff ∨ c = 10 ∨ c = 13) ∧ alphabetCount s % 4 ≠ 1

instance : DecidablePred validRawURL := fun s => by
  unfold validRawURL; infer_instance

/-! ## package crypto -/

/-- `type KeyData struct { Key, IV, MetaMAC []byte }`. -/
structure KeyData where
  Key : List Nat
  IV : List Nat
  MetaMAC : List Nat
  deriving DecidableEq, Repr

/-- Go's `copy(dst, src)`: the first `min (len dst) (len src)` bytes of `dst` are
overwritten with those of `src`. -/
def copy (dst src : List Nat) : List Nat :=
  src.take dst.length ++ dst.drop src.length

/-- `func ParseKeyFromBase64(keyStr string) (*KeyData, error)`. The loop
`for i := range 16 { key[i] = decoded[i] ^ decoded[i+16] }` is the map over `range 16`. -/
def ParseKeyFromBase64 (keyStr : List Nat) : Except CryptoError KeyData :=
  match DecodeString keyStr with
  | .error err => .error err
  | .ok decoded =>
      if decoded.length ≠ 32 then .error .invalidKeyLength
      else
        let key := (List.range 16).map fun i => decoded.getD i 0 ^^^ decoded.getD (i + 16) 0
        let iv := copy (List.replicate 8 0) ((decoded.drop 16).take 8)
        let metaMAC := copy (List.replicate 8 0) ((decoded.drop 24).take 8)
        .ok { Key := key, IV := iv, MetaMAC := metaMAC }

/-! ### crypto/aes: the block function (FIPS 197) -/

/-- The AES S-box. -/
def sbox : List Nat :=
  [
    99, 124, 119, 123, 242, 107, 111, 197, 48, 1, 103, 43, 254, 215, 171, 118,
    202, 130, 201, 125, 250, 89, 71, 240, 173, 212, 162, 175, 156, 164, 114, 192,
    183, 253, 147, 38, 54, 63, 247, 204, 52, 165, 229, 241, 113, 216, 49, 21,
    4, 199, 35, 195, 24, 150, 5, 154, 7, 18, 128, 226, 235, 39, 178, 117,
    9, 131, 44, 26, 27, 110, 90, 160, 82, 59, 214, 179, 41, 227, 47, 132,
    83, 209, 0, 237, 32, 252, 177, 91, 106, 203, 190, 57, 74, 76, 88, 207,
    208, 239, 170, 251, 67, 77, 51, 133, 69, 249, 2, 127, 80, 60, 159, 168,
    81, 163, 64, 143, 146, 157, 56, 245, 188, 182, 218, 33, 16, 255, 243, 210,
    205, 12, 19, 236, 95, 151, 68, 23, 196, 167, 126, 61, 100, 93, 25, 115,
    96, 129, 79, 220, 34, 42, 144, 136, 70, 238, 184, 20, 222, 94, 11, 219,
    224, 50, 58, 10, 73, 6, 36, 92, 194, 211, 172, 98, 145, 149, 228, 121,
    231, 200, 55, 109, 141, 213, 78, 169, 108, 86, 244, 234, 101, 122, 174, 8,
    186, 120, 37, 46, 28, 166, 180, 198, 232, 221, 116, 31, 75, 189, 139, 138,
    112, 62, 181, 102, 72, 3, 246, 14, 97, 53, 87, 185, 134, 193, 29, 158,
    225, 248, 152, 17, 105, 217, 142, 148, 155, 30, 135, 233, 206, 85, 40, 223,
    140, 161, 137, 13, 191, 230, 66, 104, 65, 153, 45, 15, 176, 84, 187, 22]

/-- `SubBytes` on a list of bytes. -/
def subBytes (s : List Nat) : List Nat := s.map fun b => sbox.getD b 0

/-- Multiplication by `x` in GF(2^8) modulo `x^8 + x^4 + x^3 + x + 1`. -/
def xtime (b : Nat) : Nat := if b < 128 then 2 * b else (2 * b) % 256 ^^^ 0x1b

/-- `ShiftRows` on the column-major state: row `r` is rotated left by `r`. -/
def shiftRows (s : List Nat) : List Nat :=
  (List.range 16).map fun i => s.getD (i % 4 + 4 * ((i / 4 + i % 4) % 4)) 0

/-- `MixColumns` on one column. -/
def mixColumn (a0 a1 a2 a3 : Nat) : List Nat :=
  [xtime a0 ^^^ (xtime a1 ^^^ a1) ^^^ a2 ^^^ a3,
   a0 ^^^ xtime a1 ^^^ (xtime a2 ^^^ a2) ^^^ a3,
   a0 ^^^ a1 ^^^ xtime a2 ^^^ (xtime a3 ^^^ a3),
   (xtime a0 ^^^ a0) ^^^ a1 ^^^ a2 ^^^ xtime a3]

/-- `MixColumns` on the state. -/
def mixColumns (s : List Nat) : List Nat :=
  (List.range 4).flatMap fun c =>
    mixColumn (s.getD (4 * c) 0) (s.getD (4 * c + 1) 0) (s.getD (4 * c + 2) 0)
      (s.getD (4 * c + 3) 0)

/-- Bytewise XOR of two byte sequences. -/
def xorBytes (a b : List Nat) : List Nat := List.zipWith (· ^^^ ·) a b

/-- One step of the key expansion: `w` is the key schedule so far (4 bytes a word), `rc` the
round constant; the word `i = len(w) / 4` is appended. -/
def expandStep (nk : Nat) (st : List Nat × Nat) : List Nat × Nat :=
  let w := st.1
  let rc := st.2
  let i := w.length / 4
  let prev := (w.drop (4 * (i - 1))).take 4
  let back := (w.drop (4 * (i - nk))).take 4
  if i % nk = 0 then
    let t := subBytes (prev.drop 1 ++ prev.take 1)
    (w ++ xorBytes back (xorBytes t [rc, 0, 0, 0]), xtime rc)
  else if 6 < nk ∧ i % nk = 4 then (w ++ xorBytes back (subBytes prev), rc)
  else (w ++ xorBytes back prev, rc)

/-- The key schedule: `4 * (nr + 1)` words for a key of `nk` words, `nr = nk + 6`. -/
def expandKey (key : List Nat) : List Nat :=
  let nk := key.length / 4
  (Nat.iterate (expandStep nk) (4 * (nk + 7) - nk) (key, 1)).1

/-- The rounds `r, r + 1, ...` of the cipher that end with `MixColumns`, `n` of them. -/
def aesRounds (w : List Nat) : Nat → Nat → List Nat → List Nat
  | 0, _, s => s
  | n + 1, r, s =>
      aesRounds w n (r + 1)
        (xorBytes (mixColumns (shiftRows (subBytes s))) ((w.drop (16 * r)).take 16))

/-- The block function of `aes.NewCipher(key)`: `Encrypt` of one 16-byte block. -/
def aesEncrypt (key blk : List Nat) : List Nat :=
  let w := expandKey key
  let nr := key.length / 4 + 6
  let s := aesRounds w (nr - 1) 1 (xorBytes blk (w.take 16))
  xorBytes (shiftRows (subBytes s)) ((w.drop (16 * nr)).take 16)

/-! ### crypto/aes and crypto/cipher -/

/-- `aes.BlockSize`. -/
def BlockSize : Nat := 16

/-- `aes.NewCipher(key)`: a key of 16, 24 or 32 bytes gives the block function of that key
(the `Encrypt` of the returned `cipher.Block`), any other length is `aes.KeySizeError`. -/
def NewCipher (key : List Nat) : Except CryptoError (List Nat → List Nat) :=
  if key.length = 16 ∨ key.length = 24 ∨ key.length = 32 then .ok (aesEncrypt key)
  else .error (.keySize key.length)

/-- The counter step of the CTR stream on the bytes from the least significant one:
`for i := len(ctr) - 1; i >= 0; i-- { ctr[i]++; if ctr[i] != 0 { break } }`. -/
def ctrIncrementRev : List Nat → List Nat
  | [] => []
  | b :: rest => if (b + 1) % 256 ≠ 0 then (b + 1) % 256 :: rest else 0 :: ctrIncrementRev rest

/-- The counter step of the CTR stream: the block as a big-endian number plus one, wrapping
around at `256 ^ len`. -/
def ctrIncrement (ctr : List Nat) : List Nat := (ctrIncrementRev ctr.reverse).reverse

/-- The 16 bytes of a keystream block: `block.Encrypt(out, ctr)`. -/
def encryptBlock (block : List Nat → List Nat) (ctr : List Nat) : List Nat :=
  (List.range BlockSize).map fun i => (block ctr).getD i 0

/-- The stream of `cipher.NewCTR(block, iv)`: `out` is the unused part of the current
keystream block. When it is empty the counter is encrypted into a fresh block and then
incremented; every source byte is XORed with the next keystream byte. -/
def ctrXOR (block : List Nat → List Nat) : List Nat → List Nat → List Nat → List Nat
  | _, _, [] => []
  | ctr, k :: out, s :: src => (s ^^^ k) :: ctrXOR block ctr out src
  | ctr, [], s :: src =>
      (s ^^^ (encryptBlock block ctr).headD 0) ::
        ctrXOR block (ctrIncrement ctr) (encryptBlock block ctr).tail src

/-- `cipher.NewCTR(block, iv).XORKeyStream(dst, src)` with `len(dst) = len(src)`: the value
left in `dst`. -/
def XORKeyStream (block : List Nat → List Nat) (iv src : List Nat) : List Nat :=
  ctrXOR block iv [] src

/-! ### decrypt.go -/

/-- The loop of `incrementIV`, `for i := len(ivCopy) - 1; i >= 0 && n > 0; i--`, with the
first argument `i + 1` (so `0` is `i < 0`). For `n > 0` the source's `n & 0xff` is `n % 256`
and `n >>= 8` is `n / 256`. -/
def incrementIVLoop : Nat → List Nat → Int → List Nat
  | 0, ivCopy, _ => ivCopy
  | i + 1, ivCopy, n =>
      if n > 0 then
        let sum : Int := (ivCopy.getD i 0 : Int) + n % 256
        let n' : Int := n / 256
        incrementIVLoop i (ivCopy.set i (sum % 256).toNat) (if sum > 255 then n' + 1 else n')
      else ivCopy

/-- `func incrementIV(iv []byte, n int64) []byte`. -/
def incrementIV (iv : List Nat) (n : Int) : List Nat :=
  let ivCopy := copy (List.replicate iv.length 0) iv
  incrementIVLoop ivCopy.length ivCopy n

/-- `func NewAESCTRReader(data []byte, keyData *KeyData, counterOffset int64) ([]byte, error)`.
Go's `/` on `int64` truncates toward zero, which is `Int.tdiv`. -/
def NewAESCTRReader (data : List Nat) (keyData : KeyData) (counterOffset : Int) :
    Except CryptoError (List Nat) :=
  match NewCipher keyData.Key with
  | .error err => .error err
  | .ok block =>
      let iv := copy (List.replicate BlockSize 0) keyData.IV
      let iv := incrementIV iv (counterOffset.tdiv 16)
      .ok (XORKeyStream block iv data)

/-- `func DecryptChunk(chunk []byte, keyData *KeyData, offset int64) ([]byte, error)`. -/
def DecryptChunk (chunk : List Nat) (keyData : KeyData) (offset : Int) :
    Except CryptoError (List Nat) :=
  if chunk.length = 0 then .error .emptyChunk
  else NewAESCTRReader chunk keyData offset

/-! ### Big-endian numbers -/

/-- A byte sequence read as a big-endian unsigned integer. -/
def beValue (l : List Nat) : Nat := l.foldl (fun acc b => acc * 256 + b) 0

/-- The `len`-byte big-endian encoding of `v` (of `v mod 256 ^ len`). -/
def beBytes : Nat → Nat → List Nat
  | 0, _ => []
  | len + 1, v => beBytes len (v / 256) ++ [v % 256]

/-- The CTR keystream of a key: byte `p` is byte `p mod 16` of keystream block `p / 16`,
and block `j` is the encryption of the 16-byte counter `IV ‖ 0^8` plus `j` (mod `2^128`). -/
def ctrKeystream (keyData : KeyData) (p : Nat) : Nat :=
  (aesEncrypt keyData.Key (beBytes 16 ((beValue (keyData.IV ++ List.replicate 8 0) + p / 16)
    % 256 ^ 16))).getD (p % 16) 0

/-- The key data of the examples: the key and IV of `TestDecryptChunk_Empty`,
`"1234567890123456"` and `"12345678"`, with an all-zero `MetaMAC`. -/
def testKey : KeyData :=
  ⟨[49, 50, 51, 52, 53, 54, 55, 56, 57, 48, 49, 50, 51, 52, 53, 54],
    [49, 50, 51, 52, 53, 54, 55, 56], List.replicate 8 0⟩

/-- The all-zero key data: `Key = 0^16`, `IV = 0^8`, `MetaMAC = 0^8`. -/
def zeroKey : KeyData := ⟨List.replicate 16 0, List.replicate 8 0, List.replicate 8 0⟩

/-! ## package megaapi -/

/-- The error of a `Body.Read`: `io.EOF` or any other error (identified by a number). -/
inductive ReadError where
  | EOF
  | other (id : Nat)
  deriving DecidableEq, Repr

/-- Errors of package `megaapi`, one constructor per error the source builds or passes on:
the error of `http.NewRequest`, the error of `Client.Do`,
`"unexpected status code: %d"`, `"missing Content-Length in response"`,
`"invalid Content-Length"`, `"requested range exceeds content length: requested %d,
available %d"`, `"read error: %w"` and `"incomplete read: expected %d, got %d"`. -/
inductive FetchError where
  | request (id : Nat)
  | transport (id : Nat)
  | unexpectedStatus (code : Int)
  | missingContentLength
  | invalidContentLength
  | rangeExceeds (requested available : Int)
  | read (err : ReadError)
  | incompleteRead (expected got : Int)
  deriving DecidableEq, Repr

/-- One step of the script of a response body: the bytes the transport delivers next and
the error that arrives with them (`none` for a `nil` error). -/
structure ReadResult where
  data : List Nat
  err : Option ReadError
  deriving DecidableEq, Repr

/-- `http.Header`: the values of each (canonical) key. -/
abbrev Header := List (List Nat × List (List Nat))

/-- `Header.Get(key)`: the first value of the key, or the empty string. -/
def Header.Get (h : Header) (key : List Nat) : List Nat :=
  match h.lookup key with
  | some (v :: _) => v
  | _ => []

/-- `Header.Set(key, value)`: the key gets the single value. -/
def Header.Set (h : Header) (key value : List Nat) : Header :=
  (key, [value]) :: h.filter fun kv => kv.1 ≠ key

/-- The part of `http.Request` the source touches. -/
structure Request where
  Method : List Nat
  URL : List Nat
  Header : Header
  deriving DecidableEq, Repr

/-- The part of `http.Response` the source touches. `Body` is the script of the body
reader: what the successive calls of `Body.Read` will deliver. A `Read` into a buffer shorter
than the next step takes the part that fits and leaves the rest (and the step's error) for
the next call; when the script is used up `Read` returns `0, io.EOF`. -/
structure Response where
  StatusCode : Int
  Header : Header
  Body : List ReadResult
  deriving DecidableEq, Repr

/-- `type ChunkDownloader struct`; `Client` is `cd.Client.Do`. -/
structure ChunkDownloader where
  URL : List Nat
  Client : Request → Except FetchError Response
  Timeout : Int

/-- The string `GET`. -/
def strGET : List Nat := [71, 69, 84]

/-- The string `Range`. -/
def strRange : List Nat := [82, 97, 110, 103, 101]

/-- The string `Content-Length`. -/
def strContentLength : List Nat :=
  [67, 111, 110, 116, 101, 110, 116, 45, 76, 101, 110, 103, 116, 104]

/-- The verb `%d` of `fmt.Sprintf` on an integer: its decimal digits, after `-` when
negative. -/
def formatInt (n : Int) : List Nat :=
  if n < 0 then 45 :: (Nat.toDigits 10 n.natAbs).map Char.toNat
  else (Nat.toDigits 10 n.toNat).map Char.toNat

/-- The value of an `int64` expression: the integer reduced to `[-2^63, 2^63)`. -/
def wrapInt64 (x : Int) : Int := (x + 2 ^ 63) % 2 ^ 64 - 2 ^ 63

/-- The digits loop of `strconv.Atoi`: `n = n*10 + int(ch - '0')`, `none` on a byte that is
not a digit. -/
def parseDigits : List Nat → Nat → Option Nat
  | [], n => some n
  | ch :: s, n => if 48 ≤ ch ∧ ch ≤ 57 then parseDigits s (n * 10 + (ch - 48)) else none

/-- `strconv.Atoi` for a 64-bit `int`: an optional sign, then at least one decimal digit and
nothing else; `none` is the syntax error or, for a value outside `[-2^63, 2^63)`, the range
error. -/
def Atoi (s : List Nat) : Option Int :=
  let neg := s.head? = some 45
  let digits := if s.head? = some 45 ∨ s.head? = some 43 then s.tail else s
  if digits = [] then none
  else
    match parseDigits digits 0 with
    | none => none
    | some un =>
        if neg then (if 2 ^ 63 < un then none else some (-(un : Int)))
        else (if 2 ^ 63 ≤ un then none else some (un : Int))

/-- `func (cd *ChunkDownloader) setRangeHeader(req *http.Request, start, end int64)`: the
header `Range` is set to `bytes=<start>-<end>`. -/
def setRangeHeader (req : Request) (start end_ : Int) : Request :=
  let value := [98, 121, 116, 101, 115, 61] ++ formatInt start ++ [45] ++ formatInt end_
  { req with Header := req.Header.Set strRange value }

/-- `func (cd *ChunkDownloader) createRequest(start, end int64) (*http.Request, error)`;
`NewRequest url` is `http.NewRequest("GET", url, nil)`. -/
def createRequest (NewRequest : List Nat → Except FetchError Request) (cd : ChunkDownloader)
    (start end_ : Int) : Except FetchError Request :=
  match NewRequest cd.URL with
  | .error err => .error err
  | .ok req => .ok (setRangeHeader req start end_)

/-- `func (cd *ChunkDownloader) sendRequest(req *http.Request) (*http.Response, error)`. -/
def sendRequest (cd : ChunkDownloader) (req : Request) : Except FetchError Response :=
  match cd.Client req with
  | .error err => .error err
  | .ok resp => .ok resp

/-- `func (cd *ChunkDownloader) checkResponseStatus(resp *http.Response) error`; `none` is
`nil`. -/
def checkResponseStatus (resp : Response) : Option FetchError :=
  if resp.StatusCode ≠ 206 ∧ resp.StatusCode ≠ 200 then
    some (.unexpectedStatus resp.StatusCode)
  else none

/-- `func (cd *ChunkDownloader) getContentLength(resp *http.Response) (int, error)`. -/
def getContentLength (resp : Response) : Except FetchError Int :=
  let totalLength := resp.Header.Get strContentLength
  if totalLength = [] then .error .missingContentLength
  else
    match Atoi totalLength with
    | none => .error .invalidContentLength
    | some length => if length ≤ 0 then .error .invalidContentLength else .ok length

/-- What a call of a function returning `([]byte, error)` does: it returns the buffer, it
returns an error, or it panics (nothing is returned). -/
inductive Outcome where
  | ok (data : List Nat)
  | error (err : FetchError)
  | panic
  deriving DecidableEq, Repr

/-- The constant `maxAlloc` of the Go runtime on a 64-bit platform, `1 << 48`: the largest
size `make` accepts. -/
def maxAlloc : Nat := 2 ^ 48

/-- `make([]byte, length)`: a buffer of `length` zero bytes; `none` is the panic
`makeslice: len out of range`, for a negative length and for one above `maxAlloc`. Up to
`maxAlloc` the machine is taken to have the memory (running out of it ends the process and
depends on the machine, not on the program). -/
def makeBytes (length : Int) : Option (List Nat) :=
  if length < 0 ∨ (maxAlloc : Int) < length then none
  else some (List.replicate length.toNat 0)

/-- The end of `readResponseBody`: `if totalRead != length { incomplete read }`, else the
buffer. The second component counts the calls of `Body.Read`. -/
def readFinish (length : Nat) (data : List Nat) (reads : Nat) : Outcome × Nat :=
  if data.length ≠ length then (.error (.incompleteRead length data.length), reads)
  else (.ok data, reads)

/-- The loop `for totalRead < length` of `readResponseBody` over the script of the body.
`data` is the filled part `data[:totalRead]` of the buffer, `reads` counts the calls of
`Body.Read`. A step that fits the free part of the buffer is read whole, with its error:
`nil` continues, `io.EOF` breaks, any other error returns the read error. A longer step fills
the buffer with a `nil` error, which ends the loop. On the used-up script `Read` returns
`0, io.EOF`. -/
def readLoop (length : Nat) : List ReadResult → List Nat → Nat → Outcome × Nat
  | [], data, reads =>
      if data.length < length then readFinish length data (reads + 1)
      else readFinish length data reads
  | r :: rest, data, reads =>
      if data.length < length then
        if r.data.length ≤ length - data.length then
          match r.err with
          | none => readLoop length rest (data ++ r.data) (reads + 1)
          | some .EOF => readFinish length (data ++ r.data) (reads + 1)
          | some (.other e) => (.error (.read (.other e)), reads + 1)
        else readFinish length (data ++ r.data.take (length - data.length)) (reads + 1)
      else readFinish length data reads

/-- `func (cd *ChunkDownloader) readResponseBody(resp *http.Response, length int)
([]byte, error)`, together with the number of calls of `resp.Body.Read`. The first statement,
`data := make([]byte, length)`, panics for a length that cannot be allocated, before any
read; otherwise the loop runs on the fresh buffer (`readLoop` keeps its filled part). -/
def readResponseBody (resp : Response) (length : Int) : Outcome × Nat :=
  match makeBytes length with
  | none => (.panic, 0)
  | some _ => readLoop length.toNat resp.Body [] 0

/-- `func (cd *ChunkDownloader) DownloadRange(start, end int64) ([]byte, error)`, together
with the number of calls of `resp.Body.Read`. `int(end-start)` is the `int64` difference
(an `int` has 64 bits). A panic of `readResponseBody` is the panic of the call. -/
def DownloadRange (NewRequest : List Nat → Except FetchError Request) (cd : ChunkDownloader)
    (start end_ : Int) : Outcome × Nat :=
  match createRequest NewRequest cd start end_ with
  | .error err => (.error err, 0)
  | .ok req =>
      match sendRequest cd req with
      | .error err => (.error err, 0)
      | .ok resp =>
          match checkResponseStatus resp with
          | some err => (.error err, 0)
          | none =>
              match getContentLength resp with
              | .error err => (.error err, 0)
              | .ok length =>
                  if length < wrapInt64 (end_ - start) then
                    (.error (.rangeExceeds (wrapInt64 (end_ - start)) length), 0)
                  else readResponseBody resp length

/-- The bytes a body delivers before end-of-data; `none` when a read error other than
`io.EOF` comes first. -/
def delivered : List ReadResult → Option (List Nat)
  | [] => some []
  | r :: rest =>
      match r.err with
      | none => (delivered rest).map (r.data ++ ·)
      | some .EOF => some r.data
      | some (.other _) => none

/-- A transport for the examples: every request is answered with `resp`. -/
def serve (resp : Response) : ChunkDownloader :=
  { URL := [], Client := fun _ => .ok resp, Timeout := 1 }

/-- A `http.NewRequest` for the examples: it accepts every URL. -/
def newGET (url : List Nat) : Except FetchError Request :=
  .ok { Method := strGET, URL := url, Header := [] }

/-- The body `This is a test body.` of `TestReadResponseBody`, 20 bytes. -/
def testBody : List Nat :=
  [84, 104, 105, 115, 32, 105, 115, 32, 97, 32, 116, 101, 115, 116, 32, 98, 111, 100, 121, 46]

/-- The response of the server of `TestReadResponseBody`: status 200, `Content-Length: 20`
and the body in one piece followed by end-of-data. -/
def testResponse : Response :=
  { StatusCode := 200, Header := [(strContentLength, [[50, 48]])],
    Body := [⟨testBody, none⟩, ⟨[], some .EOF⟩] }

/-- All the bytes of a body script, in order. -/
def bodyBytes : List ReadResult → List Nat
  | [] => []
  | r :: rest => r.data ++ bodyBytes rest

/-- A part of a body script whose reads all report a `nil` error. -/
def quiet (body : List ReadResult) : Prop := ∀ r ∈ body, r.err = none

instance : DecidablePred quiet := fun body => by
  unfold quiet; infer_instance

/-! ### downloader.go with Go's result pairs

The functions above return an `Outcome`, which has no buffer on the error side. To speak of
the buffer a failing call returns, `readResponseBody` and `DownloadRange` are embedded a
second time with the pair `([]byte, error)` of the source, return statement by return
statement, and with the buffer `data` written in place; a call that panics returns no
pair. -/

/-- The pair `([]byte, error)` a Go function returns; `none` is `nil`. -/
abbrev GoResult := Option (List Nat) × Option FetchError

/-- The pair an outcome returns, `(data, nil)` or `(nil, err)`; a panic returns none. -/
def toPair : Outcome → Option GoResult
  | .ok data => some (some data, none)
  | .error err => some (none, some err)
  | .panic => none

/-- The buffer after `Body.Read(data[totalRead:])` has stored the bytes `p` (which fit). -/
def writeAt (data : List Nat) (totalRead : Nat) (p : List Nat) : List Nat :=
  data.take totalRead ++ p ++ data.drop (totalRead + p.length)

/-- The end of `readResponseBody`: `if totalRead != length { return nil, incomplete read }`,
then `return data, nil`. -/
def readFinishPair (length : Nat) (data : List Nat) (totalRead : Nat) : GoResult :=
  if totalRead ≠ length then (none, some (.incompleteRead length totalRead))
  else (some data, none)

/-- The loop of `readResponseBody` on the buffer `data` (of `length` bytes) and the count
`totalRead`, over the script of the body, as `readLoop`: a step that fits is stored and its
error examined (`nil` continues, `io.EOF` breaks, any other is `return nil, read error`); a
longer step fills the buffer; the used-up script reads `0, io.EOF`. -/
def readLoopPair (length : Nat) : List ReadResult → List Nat → Nat → GoResult
  | [], data, totalRead => readFinishPair length data totalRead
  | r :: rest, data, totalRead =>
      if totalRead < length then
        if r.data.length ≤ length - totalRead then
          match r.err with
          | none => readLoopPair length rest (writeAt data totalRead r.data)
              (totalRead + r.data.length)
          | some .EOF =>
              readFinishPair length (writeAt data totalRead r.data) (totalRead + r.data.length)
          | some (.other e) => (none, some (.read (.other e)))
        else
          readFinishPair length (writeAt data totalRead (r.data.take (length - totalRead)))
            (totalRead + (r.data.take (length - totalRead)).length)
      else readFinishPair length data totalRead

/-- `readResponseBody` with the result pair of the source: `data := make([]byte, length)`
(`none` when it panics), `totalRead := 0`, the loop, the final check. -/
def readResponseBodyPair (resp : Response) (length : Int) : Option GoResult :=
  match makeBytes length with
  | none => none
  | some data => some (readLoopPair length.toNat resp.Body data 0)

/-- `DownloadRange` with the result pair of the source: every failing step is
`return nil, err`, also after `readResponseBody`; the last statement is `return data, nil`;
`none` is the panic of `readResponseBody`. -/
def DownloadRangePair (NewRequest : List Nat → Except FetchError Request)
    (cd : ChunkDownloader) (start end_ : Int) : Option GoResult :=
  match createRequest NewRequest cd start end_ with
  | .error err => some (none, some err)
  | .ok req =>
      match sendRequest cd req with
      | .error err => some (none, some err)
      | .ok resp =>
          match checkResponseStatus resp with
          | some err => some (none, some err)
          | none =>
              match getContentLength resp with
              | .error err => some (none, some err)
              | .ok length =>
                  if length < wrapInt64 (end_ - start) then
                    some (none, some (.rangeExceeds (wrapInt64 (end_ - start)) length))
                  else
                    match readResponseBodyPair resp length with
                    | none => none
                    | some (_, some err) => some (none, some err)
                    | some (data, none) => some (data, none)

/-- The token rebuilt from key data: bytes 16..31 are `IV ++ MetaMAC`, and byte `i < 16` is
`Key[i] XOR (IV ++ MetaMAC)[i]`. -/
def recoverToken (k : KeyData) : List Nat :=
  ((List.range 16).map fun i => k.Key.getD i 0 ^^^ (k.IV ++ k.MetaMAC).getD i 0) ++
    (k.IV ++ k.MetaMAC)

/-- A response that declares one byte more than `make` can allocate: status 200,
`Content-Length: 281474976710657` (`2^48 + 1`) and a body that delivers that many zero bytes
in one piece with end-of-data. -/
def hugeResponse : Response :=
  { StatusCode := 200,
    Header := [(strContentLength, [[50, 56, 49, 52, 55, 52, 57, 55, 54, 55, 49, 48, 54, 53, 55]])],
    Body := [⟨List.replicate (2 ^ 48 + 1) 0, some .EOF⟩] }

/-! # Theorems -/

/-! ## crypto/aes: the examples of FIPS 197, appendix C -/

set_option maxRecDepth 100000 in
/-- FIPS 197 C.1: AES-128 of `00112233445566778899aabbccddeeff` under the key
`000102030405060708090a0b0c0d0e0f` is `69c4e0d86a7b0430d8cdb78070b4c55a`. -/
theorem aesEncrypt_fips197_128 :
    aesEncrypt (List.range 16) ((List.range 16).map (· * 17)) =
      [105, 196, 224, 216, 106, 123, 4, 48, 216, 205, 183, 128, 112, 180, 197, 90] := by
  decide

set_option maxRecDepth 100000 in
/-- FIPS 197 C.3: AES-256 of the same block under the key `00 01 ... 1f` is
`8ea2b7ca516745bfeafc49904b496089`. -/
theorem aesEncrypt_fips197_256 :
    aesEncrypt (List.range 32) ((List.range 16).map (· * 17)) =
      [142, 162, 183, 202, 81, 103, 69, 191, 234, 252, 73, 144, 75, 73, 96, 137] := by
  decide

/-! ## encoding/base64 -/

theorem shl_or_eq (x y i : Nat) (h : y < 2 ^ i) : x <<< i ||| y = x * 2 ^ i + y := by
  rw [Nat.shiftLeft_eq, Nat.mul_comm, ← Nat.mul_add_lt_is_or h]

theorem pack3 (a b c : Nat) (hb : b < 256) (hc : c < 256) :
    a <<< 16 ||| b <<< 8 ||| c = a * 65536 + b * 256 + c := by
  have h1 : a <<< 16 ||| b <<< 8 = (a * 256 + b) <<< 8 := by
    have hb8 : b <<< 8 < 2 ^ 16 := by rw [Nat.shiftLeft_eq]; omega
    rw [shl_or_eq _ _ 16 hb8]
    simp only [Nat.shiftLeft_eq]
    omega
  rw [h1, shl_or_eq _ _ 8 (by omega)]
  omega

theorem pack4 (p q r t : Nat) (hq : q < 64) (hr : r < 64) (ht : t < 64) :
    p <<< 18 ||| q <<< 12 ||| r <<< 6 ||| t = p * 262144 + q * 4096 + r * 64 + t := by
  have h1 : p <<< 18 ||| q <<< 12 = (p * 64 + q) <<< 12 := by
    have hq12 : q <<< 12 < 2 ^ 18 := by rw [Nat.shiftLeft_eq]; omega
    rw [shl_or_eq _ _ 18 hq12]
    simp only [Nat.shiftLeft_eq]
    omega
  have h2 : (p * 64 + q) <<< 12 ||| r <<< 6 = ((p * 64 + q) * 64 + r) <<< 6 := by
    have hr6 : r <<< 6 < 2 ^ 12 := by rw [Nat.shiftLeft_eq]; omega
    rw [shl_or_eq _ _ 12 hr6]
    simp only [Nat.shiftLeft_eq]
    omega
  rw [h1, h2, shl_or_eq _ _ 6 (by omega)]
  omega

theorem and_3F (x : Nat) : x &&& 0x3F = x % 64 := Nat.and_pow_two_sub_one_eq_mod x 6

theorem decodeMap_encodeChar : ∀ v, v < 64 → decodeMap (encodeChar v) = v := by decide

theorem decodeMap_encodeChar_ne : ∀ v, v < 64 → decodeMap (encodeChar v) ≠ 0xff := by decide

theorem quantumBytes_four (a b c : Nat) (ha : a < 256) (hb : b < 256) (hc : c < 256) :
    quantumBytes [(a <<< 16 ||| b <<< 8 ||| c) >>> 18 &&& 0x3F,
      (a <<< 16 ||| b <<< 8 ||| c) >>> 12 &&& 0x3F,
      (a <<< 16 ||| b <<< 8 ||| c) >>> 6 &&& 0x3F,
      (a <<< 16 ||| b <<< 8 ||| c) &&& 0x3F] = [a, b, c] := by
  simp only [quantumBytes, List.getD_cons_zero, List.getD_cons_succ, and_3F, pack3 a b c hb hc,
    Nat.shiftRight_eq_div_pow, List.length_cons, List.length_nil]
  rw [pack4 _ _ _ _ (Nat.mod_lt _ (by norm_num)) (Nat.mod_lt _ (by norm_num))
    (Nat.mod_lt _ (by norm_num))]
  simp only [List.take, List.cons.injEq, and_true]
  refine ⟨?_, ?_, ?_⟩ <;> omega

theorem quantumBytes_three (a b : Nat) (ha : a < 256) (hb : b < 256) :
    quantumBytes [(a <<< 16 ||| b <<< 8) >>> 18 &&& 0x3F,
      (a <<< 16 ||| b <<< 8) >>> 12 &&& 0x3F,
      (a <<< 16 ||| b <<< 8) >>> 6 &&& 0x3F] = [a, b] := by
  have hp : a <<< 16 ||| b <<< 8 = a * 65536 + b * 256 := by
    have := pack3 a b 0 hb (by norm_num)
    simpa using this
  simp only [quantumBytes, List.getD_cons_zero, List.getD_cons_succ, and_3F, hp,
    Nat.shiftRight_eq_div_pow, List.length_cons, List.length_nil, List.getD_nil]
  rw [pack4 _ _ _ _ (Nat.mod_lt _ (by norm_num)) (Nat.mod_lt _ (by norm_num)) (by norm_num)]
  simp only [List.take, List.cons.injEq, and_true]
  refine ⟨?_, ?_⟩ <;> omega

theorem quantumBytes_two (a : Nat) (ha : a < 256) :
    quantumBytes [(a <<< 16) >>> 18 &&& 0x3F, (a <<< 16) >>> 12 &&& 0x3F] = [a] := by
  have hp : a <<< 16 = a * 65536 := by simp [Nat.shiftLeft_eq]
  simp only [quantumBytes, List.getD_cons_zero, List.getD_cons_succ, and_3F, hp,
    Nat.shiftRight_eq_div_pow, List.length_cons, List.length_nil, List.getD_nil]
  rw [pack4 _ _ _ _ (Nat.mod_lt _ (by norm_num)) (by norm_num) (by norm_num)]
  simp only [List.take, List.cons.injEq, and_true]
  omega

theorem decodeLoop_triple (c0 c1 c2 : Nat)
    (h0 : decodeMap c0 ≠ 0xff) (h1 : decodeMap c1 ≠ 0xff) (h2 : decodeMap c2 ≠ 0xff) :
    decodeLoop [c0, c1, c2] [] = .ok (quantumBytes [decodeMap c0, decodeMap c1, decodeMap c2]) := by
  simp [decodeLoop, h0, h1, h2]

theorem decodeLoop_pair (c0 c1 : Nat) (h0 : decodeMap c0 ≠ 0xff) (h1 : decodeMap c1 ≠ 0xff) :
    decodeLoop [c0, c1] [] = .ok (quantumBytes [decodeMap c0, decodeMap c1]) := by
  simp [decodeLoop, h0, h1]

theorem decodeLoop_quad (c0 c1 c2 c3 : Nat) (rest : List Nat)
    (h0 : decodeMap c0 ≠ 0xff) (h1 : decodeMap c1 ≠ 0xff) (h2 : decodeMap c2 ≠ 0xff)
    (h3 : decodeMap c3 ≠ 0xff) :
    decodeLoop (c0 :: c1 :: c2 :: c3 :: rest) [] =
      match decodeLoop rest [] with
      | .ok out =>
          .ok (quantumBytes [decodeMap c0, decodeMap c1, decodeMap c2, decodeMap c3] ++ out)
      | .error e => .error e := by
  simp [decodeLoop, h0, h1, h2, h3]

/-- Decoding inverts encoding on every byte sequence. -/
theorem DecodeString_EncodeToString (d : List Nat) (hb : ∀ b ∈ d, b < 256) :
    DecodeString (EncodeToString d) = .ok d := by
  unfold DecodeString
  induction d using EncodeToString.induct with
  | case1 a b c rest ih =>
      have ha : a < 256 := hb a (by simp)
      have hb' : b < 256 := hb b (by simp)
      have hc : c < 256 := hb c (by simp)
      have hrest : ∀ x ∈ rest, x < 256 := fun x hx => hb x (by simp [hx])
      have lt64 : ∀ x : Nat, x &&& 0x3F < 64 := fun x => by rw [and_3F]; omega
      rw [EncodeToString, decodeLoop_quad _ _ _ _ _ (decodeMap_encodeChar_ne _ (lt64 _))
        (decodeMap_encodeChar_ne _ (lt64 _)) (decodeMap_encodeChar_ne _ (lt64 _))
        (decodeMap_encodeChar_ne _ (lt64 _)), ih hrest]
      simp only [decodeMap_encodeChar _ (lt64 _)]
      rw [quantumBytes_four a b c ha hb' hc]
      rfl
  | case2 a b =>
      have ha : a < 256 := hb a (by simp)
      have hb' : b < 256 := hb b (by simp)
      have lt64 : ∀ x : Nat, x &&& 0x3F < 64 := fun x => by rw [and_3F]; omega
      rw [EncodeToString, decodeLoop_triple _ _ _ (decodeMap_encodeChar_ne _ (lt64 _))
        (decodeMap_encodeChar_ne _ (lt64 _)) (decodeMap_encodeChar_ne _ (lt64 _))]
      simp only [decodeMap_encodeChar _ (lt64 _)]
      rw [quantumBytes_three a b ha hb']
  | case3 a =>
      have ha : a < 256 := hb a (by simp)
      have lt64 : ∀ x : Nat, x &&& 0x3F < 64 := fun x => by rw [and_3F]; omega
      rw [EncodeToString, decodeLoop_pair _ _ (decodeMap_encodeChar_ne _ (lt64 _))
        (decodeMap_encodeChar_ne _ (lt64 _))]
      simp only [decodeMap_encodeChar _ (lt64 _)]
      rw [quantumBytes_two a ha]
  | case4 => simp [EncodeToString, decodeLoop]

theorem decodeLoop_error (s dbuf : List Nat) (e : CryptoError)
    (h : decodeLoop s dbuf = .error e) : e = .corruptInput := by
  induction s generalizing dbuf e with
  | nil =>
      simp only [decodeLoop] at h
      split_ifs at h; simp_all
  | cons c src ih =>
      simp only [decodeLoop] at h
      split_ifs at h
      · cases hr : decodeLoop src [] with
        | ok out => simp [hr] at h
        | error e' =>
            simp only [hr, Except.error.injEq] at h
            exact h ▸ ih _ _ hr
      · exact ih _ _ h
      · exact ih _ _ h
      · simp_all

theorem decodeLoop_ok_iff (s dbuf : List Nat) (hd : dbuf.length < 4) :
    (∃ d, decodeLoop s dbuf = .ok d) ↔
      (∀ c ∈ s, decodeMap c ≠ 0xff ∨ c = 10 ∨ c = 13) ∧
        (dbuf.length + alphabetCount s) % 4 ≠ 1 := by
  induction s generalizing dbuf with
  | nil =>
      simp only [decodeLoop, List.not_mem_nil, false_imp_iff, implies_true, alphabetCount,
        Nat.add_zero, true_and]
      split_ifs with h0 h1
      · simp; omega
      · simp; omega
      · simp; omega
  | cons c src ih =>
      simp only [decodeLoop, List.mem_cons, forall_eq_or_imp, alphabetCount]
      by_cases hc : decodeMap c ≠ 0xff
      · simp only [hc, if_true, true_or, true_and, ne_eq, not_false_eq_true]
        by_cases h4 : dbuf.length + 1 = 4
        · simp only [h4, if_true]
          have := ih [] (by simp)
          simp only [List.length_nil, Nat.zero_add] at this
          constructor
          · intro ⟨d, hdd⟩
            cases hr : decodeLoop src [] with
            | ok out =>
                have h2 := this.mp ⟨out, hr⟩
                exact ⟨h2.1, by omega⟩
            | error e => simp [hr] at hdd
          · intro ⟨ha, hm⟩
            obtain ⟨out, hout⟩ := this.mpr ⟨ha, by omega⟩
            exact ⟨quantumBytes (dbuf ++ [decodeMap c]) ++ out, by simp [hout]⟩
        · simp only [h4, if_false]
          have := ih (dbuf ++ [decodeMap c]) (by simp; omega)
          rw [this]
          simp only [List.length_append, List.length_singleton]
          constructor
          · intro ⟨ha, hm⟩; exact ⟨ha, by omega⟩
          · intro ⟨ha, hm⟩; exact ⟨ha, by omega⟩
      · simp only [hc, if_false, false_or]
        by_cases hn : c = 10 ∨ c = 13
        · simp only [hn, if_true, true_and]
          exact ih dbuf hd
        · simp [hn]

/-- The decoder accepts exactly the strings of `validRawURL`. -/
theorem DecodeString_ok_iff (s : List Nat) : (∃ d, DecodeString s = .ok d) ↔ validRawURL s := by
  have := decodeLoop_ok_iff s [] (by simp)
  simpa [DecodeString, validRawURL] using this

/-! ## ParseKeyFromBase64 -/

theorem copy_full (n : Nat) (src : List Nat) (h : src.length = n) :
    copy (List.replicate n 0) src = src := by
  simp [copy, h]

/-- C1: for every 32-byte sequence `d`, `ParseKeyFromBase64` of the unpadded URL-safe base64
encoding of `d` succeeds with a 16-byte `Key` where `Key[i] = d[i] XOR d[i+16]`, the 8-byte
`IV = d[16:24]` and the 8-byte `MetaMAC = d[24:32]`. -/
theorem ParseKeyFromBase64_encoded (d : List Nat) (hlen : d.length = 32)
    (hbytes : ∀ b ∈ d, b < 256) :
    ∃ k, ParseKeyFromBase64 (EncodeToString d) = .ok k ∧
      k.Key.length = 16 ∧ (∀ i, i < 16 → k.Key.getD i 0 = d.getD i 0 ^^^ d.getD (i + 16) 0) ∧
      k.IV = (d.drop 16).take 8 ∧ k.IV.length = 8 ∧
      k.MetaMAC = (d.drop 24).take 8 ∧ k.MetaMAC.length = 8 := by
  have hiv : ((d.drop 16).take 8).length = 8 := by simp [hlen]
  have hmac : ((d.drop 24).take 8).length = 8 := by simp [hlen]
  refine ⟨⟨(List.range 16).map fun i => d.getD i 0 ^^^ d.getD (i + 16) 0,
    (d.drop 16).take 8, (d.drop 24).take 8⟩, ?_, ?_, ?_, rfl, hiv, rfl, hmac⟩
  · simp only [ParseKeyFromBase64, DecodeString_EncodeToString d hbytes, hlen, ne_eq,
      not_true_eq_false, if_false, copy_full 8 _ hiv, copy_full 8 _ hmac]
  · simp
  · intro i hi
    simp [List.getD_eq_getElem?_getD, List.getElem?_map, List.getElem?_range hi]

/-- C1 at the token `0, 1, ..., 31`. -/
theorem ParseKeyFromBase64_encoded_witness :
    ∃ k, ParseKeyFromBase64 (EncodeToString (List.range 32)) = .ok k ∧
      k.Key.length = 16 ∧
      (∀ i, i < 16 → k.Key.getD i 0 =
        (List.range 32).getD i 0 ^^^ (List.range 32).getD (i + 16) 0) ∧
      k.IV = ((List.range 32).drop 16).take 8 ∧ k.IV.length = 8 ∧
      k.MetaMAC = ((List.range 32).drop 24).take 8 ∧ k.MetaMAC.length = 8 :=
  ParseKeyFromBase64_encoded (List.range 32) (by decide) (by decide)

/-- C2: `ParseKeyFromBase64` fails with the decoder's error on every string that is not valid
unpadded URL-safe base64 (`validRawURL`, the strings the decoder accepts), fails with the
length error on every valid string whose decoding is not 32 bytes long (the encoding of 16
bytes is one), and succeeds exactly when the string decodes to 32 bytes. -/
theorem ParseKeyFromBase64_fails_or_32 (s : List Nat) :
    (¬ validRawURL s → ParseKeyFromBase64 s = .error .corruptInput) ∧
    (∀ d, DecodeString s = .ok d → d.length ≠ 32 →
      ParseKeyFromBase64 s = .error .invalidKeyLength) ∧
    ((∃ k, ParseKeyFromBase64 s = .ok k) ↔ ∃ d, DecodeString s = .ok d ∧ d.length = 32) ∧
    ParseKeyFromBase64 (EncodeToString (List.replicate 16 0)) = .error .invalidKeyLength := by
  refine ⟨?_, ?_, ?_, by decide⟩
  · intro hv
    cases hd : DecodeString s with
    | ok d => exact absurd ((DecodeString_ok_iff s).mp ⟨d, hd⟩) hv
    | error e =>
        have := decodeLoop_error s [] e hd
        simp [ParseKeyFromBase64, hd, this]
  · intro d hd hlen
    simp [ParseKeyFromBase64, hd, hlen]
  · constructor
    · intro ⟨k, hk⟩
      cases hd : DecodeString s with
      | ok d =>
          refine ⟨d, rfl, ?_⟩
          by_contra hlen
          simp [ParseKeyFromBase64, hd, hlen] at hk
      | error e => simp [ParseKeyFromBase64, hd] at hk
    · intro ⟨d, hd, hlen⟩
      simp [ParseKeyFromBase64, hd, hlen]

/-- C2 at the string `!!!notbase64$$$` of the test suite, which is rejected. -/
theorem ParseKeyFromBase64_fails_or_32_witness :
    ParseKeyFromBase64 [33, 33, 33, 110, 111, 116, 98, 97, 115, 101, 54, 52, 36, 36, 36] =
      .error .corruptInput :=
  (ParseKeyFromBase64_fails_or_32 _).1 (by decide)

/-! ## The CTR stream -/

theorem ctrXOR_length (block : List Nat → List Nat) (ctr out src : List Nat) :
    (ctrXOR block ctr out src).length = src.length := by
  induction src generalizing ctr out with
  | nil => cases out <;> simp [ctrXOR]
  | cons s src ih => cases out <;> simp [ctrXOR, ih]

theorem ctrXOR_ctrXOR (block : List Nat → List Nat) (ctr out src : List Nat) :
    ctrXOR block ctr out (ctrXOR block ctr out src) = src := by
  induction src generalizing ctr out with
  | nil => cases out <;> simp [ctrXOR]
  | cons s src ih => cases out <;> simp [ctrXOR, ih, Nat.xor_cancel_right]

theorem NewAESCTRReader_ok (data : List Nat)
    (keyData : KeyData) (hkey : keyData.Key.length = 16) (offset : Int) :
    NewAESCTRReader data keyData offset =
      .ok (XORKeyStream (aesEncrypt keyData.Key)
        (incrementIV (copy (List.replicate BlockSize 0) keyData.IV) (offset.tdiv 16)) data) := by
  simp [NewAESCTRReader, NewCipher, hkey]

/-- C3: round trip. For every `KeyData` with a 16-byte key, every non-empty `p` and every
offset (the non-negative multiples of 16 among them), `NewAESCTRReader` on `p` succeeds, and
`DecryptChunk` as well as `NewAESCTRReader` on its result, with the same key and offset,
return `p`. -/
theorem NewAESCTRReader_roundtrip (keyData : KeyData)
    (hkey : keyData.Key.length = 16) (p : List Nat) (hp : p ≠ []) (offset : Int) :
    ∃ c, NewAESCTRReader p keyData offset = .ok c ∧
      DecryptChunk c keyData offset = .ok p ∧
      NewAESCTRReader c keyData offset = .ok p := by
  refine ⟨_, NewAESCTRReader_ok p keyData hkey offset, ?_, ?_⟩
  · have hlen : (XORKeyStream (aesEncrypt keyData.Key)
        (incrementIV (copy (List.replicate BlockSize 0) keyData.IV) (offset.tdiv 16)) p).length
        ≠ 0 := by
      rw [XORKeyStream, ctrXOR_length]
      exact fun h => hp (List.length_eq_zero.mp h)
    rw [DecryptChunk, if_neg hlen, NewAESCTRReader_ok _ keyData hkey offset]
    simp only [XORKeyStream, ctrXOR_ctrXOR]
  · rw [NewAESCTRReader_ok _ keyData hkey offset]
    simp only [XORKeyStream, ctrXOR_ctrXOR]

/-- C3 at the text `test` and offset 32 under AES. -/
theorem NewAESCTRReader_roundtrip_witness :
    ∃ c, NewAESCTRReader [116, 101, 115, 116] testKey 32 = .ok c ∧
      DecryptChunk c testKey 32 = .ok [116, 101, 115, 116] ∧
      NewAESCTRReader c testKey 32 = .ok [116, 101, 115, 116] :=
  NewAESCTRReader_roundtrip testKey (by decide) [116, 101, 115, 116] (by decide) 32

/-- C4: with a 16-byte key, `DecryptChunk` fails exactly on the empty chunk; on a non-empty
chunk of length `N` it succeeds with `N` bytes, the result of `NewAESCTRReader` on the same
arguments. -/
theorem DecryptChunk_fails_iff_empty (keyData : KeyData)
    (hkey : keyData.Key.length = 16) (chunk : List Nat) (offset : Int) :
    ((∃ e, DecryptChunk chunk keyData offset = .error e) ↔ chunk.length = 0) ∧
    (chunk.length ≠ 0 → ∃ out, DecryptChunk chunk keyData offset = .ok out ∧
      out.length = chunk.length ∧ NewAESCTRReader chunk keyData offset = .ok out) := by
  constructor
  · constructor
    · intro ⟨e, he⟩
      by_contra hne
      rw [DecryptChunk, if_neg hne, NewAESCTRReader_ok _ keyData hkey offset] at he
      cases he
    · intro h0
      exact ⟨.emptyChunk, by simp [DecryptChunk, h0]⟩
  · intro hne
    refine ⟨_, ?_, ?_, NewAESCTRReader_ok chunk keyData hkey offset⟩
    · rw [DecryptChunk, if_neg hne, NewAESCTRReader_ok _ keyData hkey offset]
    · rw [XORKeyStream, ctrXOR_length]

/-- C4 at the key of `TestDecryptChunk_Empty` and the empty chunk. -/
theorem DecryptChunk_fails_iff_empty_witness :
    ∃ e, DecryptChunk [] testKey 0 = .error e :=
  (DecryptChunk_fails_iff_empty testKey (by decide) [] 0).1.mpr (by decide)

/-! ## incrementIV -/

theorem beValue_append_singleton (l : List Nat) (x : Nat) :
    beValue (l ++ [x]) = beValue l * 256 + x := by
  simp [beValue, List.foldl_append]

theorem beValue_lt (l : List Nat) (hb : ∀ b ∈ l, b < 256) : beValue l < 256 ^ l.length := by
  induction l using List.reverseRecOn with
  | nil => simp [beValue]
  | append_singleton l x ih =>
      have hx : x < 256 := hb x (by simp)
      have hl := ih fun b hb' => hb b (by simp [hb'])
      rw [beValue_append_singleton, List.length_append, List.length_singleton, pow_succ]
      omega

theorem mul_add_mod_mul (y x M : Nat) (hx : x < 256) :
    (256 * y + x) % (256 * M) = 256 * (y % M) + x := by
  have h1 : (256 * y + x) / 256 = y := by omega
  rw [Nat.mod_mul, h1]
  omega

theorem incrementIVLoop_nonpos (i : Nat) (l : List Nat) (n : Int) (hn : n ≤ 0) :
    incrementIVLoop i l n = l := by
  cases i with
  | zero => rfl
  | succ i => simp only [incrementIVLoop, if_neg (not_lt.mpr hn)]

theorem incrementIVLoop_succ_pos (i : Nat) (l : List Nat) (m : Nat) (hm : 0 < m)
    (hb : l.getD i 0 < 256) :
    incrementIVLoop (i + 1) l (m : Int) =
      incrementIVLoop i (l.set i ((l.getD i 0 + m % 256) % 256))
        ((m / 256 + (l.getD i 0 + m % 256) / 256 : Nat) : Int) := by
  have hpos : (m : Int) > 0 := by exact_mod_cast hm
  have h1 : (((l.getD i 0 : Nat) : Int) + (m : Int) % 256) % 256 =
      (((l.getD i 0 + m % 256) % 256 : Nat) : Int) := by omega
  have h2 : (if ((l.getD i 0 : Nat) : Int) + (m : Int) % 256 > 255 then (m : Int) / 256 + 1
      else (m : Int) / 256) = ((m / 256 + (l.getD i 0 + m % 256) / 256 : Nat) : Int) := by
    split_ifs with h <;> omega
  simp only [incrementIVLoop, if_pos hpos, h1, h2, Int.toNat_ofNat]

/-- The loop of `incrementIV` started at index `pre.length - 1` leaves `suf` alone and adds
`m` to the number `pre`, modulo `256 ^ pre.length`. -/
theorem incrementIVLoop_spec (k : Nat) :
    ∀ (pre suf : List Nat) (m : Nat), pre.length = k → (∀ b ∈ pre, b < 256) →
      ∃ pre', incrementIVLoop k (pre ++ suf) (m : Int) = pre' ++ suf ∧ pre'.length = k ∧
        (∀ b ∈ pre', b < 256) ∧ beValue pre' = (beValue pre + m) % 256 ^ k := by
  induction k with
  | zero =>
      intro pre suf m hlen _
      have : pre = [] := List.length_eq_zero.mp hlen
      subst this
      exact ⟨[], by simp [incrementIVLoop], rfl, by simp, by simp [beValue, Nat.mod_one]⟩
  | succ k ih =>
      intro pre suf m hlen hb
      obtain ⟨pre0, b, rfl⟩ : ∃ pre0 b, pre = pre0 ++ [b] := by
        rcases List.eq_nil_or_concat pre with h | ⟨l, x, h⟩
        · simp [h] at hlen
        · exact ⟨l, x, by simpa using h⟩
      have hlen0 : pre0.length = k := by simpa using hlen
      have hb256 : b < 256 := hb b (by simp)
      have hb0 : ∀ x ∈ pre0, x < 256 := fun x hx => hb x (by simp [hx])
      rcases Nat.eq_zero_or_pos m with hm | hm
      · subst hm
        refine ⟨pre0 ++ [b], ?_, hlen, hb, ?_⟩
        · exact incrementIVLoop_nonpos _ _ _ (by simp)
        · rw [Nat.add_zero, Nat.mod_eq_of_lt]
          have := beValue_lt (pre0 ++ [b]) hb
          rwa [hlen] at this
      · have hget : (pre0 ++ [b] ++ suf).getD k 0 = b := by
          rw [List.append_assoc, List.getD_append_right _ _ _ _ (by omega)]
          simp [hlen0]
        have hset : ∀ x, (pre0 ++ [b] ++ suf).set k x = pre0 ++ (x :: suf) := by
          intro x
          rw [List.append_assoc, List.set_append, if_neg (by omega)]
          simp [hlen0]
        rw [incrementIVLoop_succ_pos _ _ _ hm (by rw [hget]; exact hb256), hget, hset]
        obtain ⟨pre', hrun, hlen', hb', hval⟩ :=
          ih pre0 ((b + m % 256) % 256 :: suf) (m / 256 + (b + m % 256) / 256) hlen0 hb0
        refine ⟨pre' ++ [(b + m % 256) % 256], ?_, by simp [hlen'], ?_, ?_⟩
        · rw [hrun]; simp
        · intro x hx
          rcases List.mem_append.mp hx with h | h
          · exact hb' x h
          · have : x = (b + m % 256) % 256 := by simpa using h
            omega
        · rw [beValue_append_singleton, beValue_append_singleton, hval, pow_succ,
            Nat.mul_comm (256 ^ k) 256]
          have key : beValue pre0 * 256 + b + m =
              256 * (beValue pre0 + (m / 256 + (b + m % 256) / 256)) + (b + m % 256) % 256 := by
            omega
          rw [key, mul_add_mod_mul _ _ _ (Nat.mod_lt _ (by norm_num))]
          omega

theorem incrementIV_eq_loop (iv : List Nat) (n : Int) :
    incrementIV iv n = incrementIVLoop iv.length iv n := by
  simp [incrementIV, copy_full iv.length iv rfl]

/-- The length, the byte range and the value of `incrementIV iv m`. -/
theorem incrementIV_spec (iv : List Nat) (hb : ∀ b ∈ iv, b < 256) (m : Nat) :
    (incrementIV iv (m : Int)).length = iv.length ∧ (∀ b ∈ incrementIV iv (m : Int), b < 256) ∧
      beValue (incrementIV iv (m : Int)) = (beValue iv + m) % 256 ^ iv.length := by
  obtain ⟨pre', hrun, hlen', hb', hval⟩ := incrementIVLoop_spec iv.length iv [] m rfl hb
  rw [incrementIV_eq_loop]
  rw [List.append_nil] at hrun
  rw [hrun]
  simpa using ⟨hlen', hb', hval⟩

/-- C5: for every byte sequence `iv` of length `L` and every `n ≥ 0`, `incrementIV iv n` has
length `L` and, read as a big-endian unsigned integer, is `(value iv + n) mod 256 ^ L`;
`[0,0,0,0,0,0,0,1]` incremented by 1 is `[0,0,0,0,0,0,0,2]` and by 256 is
`[0,0,0,0,0,0,1,1]`. -/
theorem incrementIV_value (iv : List Nat) (hb : ∀ b ∈ iv, b < 256) (n : Int) (hn : 0 ≤ n) :
    (incrementIV iv n).length = iv.length ∧
      (beValue (incrementIV iv n) : Int) = ((beValue iv : Int) + n) % (256 : Int) ^ iv.length ∧
      incrementIV [0, 0, 0, 0, 0, 0, 0, 1] 1 = [0, 0, 0, 0, 0, 0, 0, 2] ∧
      incrementIV [0, 0, 0, 0, 0, 0, 0, 1] 256 = [0, 0, 0, 0, 0, 0, 1, 1] := by
  obtain ⟨m, rfl⟩ := Int.eq_ofNat_of_zero_le hn
  obtain ⟨hlen, _, hval⟩ := incrementIV_spec iv hb m
  refine ⟨hlen, ?_, by decide, by decide⟩
  rw [hval]
  push_cast
  rfl

/-- C5 at a carry through two bytes: `[1, 255, 255]` plus 1. -/
theorem incrementIV_value_witness :
    (incrementIV [1, 255, 255] 1).length = [1, 255, 255].length ∧
      (beValue (incrementIV [1, 255, 255] 1) : Int) =
        ((beValue [1, 255, 255] : Int) + 1) % (256 : Int) ^ [1, 255, 255].length ∧
      incrementIV [0, 0, 0, 0, 0, 0, 0, 1] 1 = [0, 0, 0, 0, 0, 0, 0, 2] ∧
      incrementIV [0, 0, 0, 0, 0, 0, 0, 1] 256 = [0, 0, 0, 0, 0, 0, 1, 1] :=
  incrementIV_value [1, 255, 255] (by decide) 1 (by decide)

/-! ## Counter arithmetic of the CTR stream -/

theorem beBytes_length (len v : Nat) : (beBytes len v).length = len := by
  induction len generalizing v with
  | zero => rfl
  | succ len ih => simp [beBytes, ih]

theorem beBytes_beValue (l : List Nat) (hb : ∀ b ∈ l, b < 256) :
    beBytes l.length (beValue l) = l := by
  induction l using List.reverseRecOn with
  | nil => rfl
  | append_singleton l x ih =>
      have hx : x < 256 := hb x (by simp)
      have hl := ih fun b hb' => hb b (by simp [hb'])
      rw [beValue_append_singleton, List.length_append, List.length_singleton, beBytes]
      have h1 : (beValue l * 256 + x) / 256 = beValue l := by omega
      have h2 : (beValue l * 256 + x) % 256 = x := by omega
      rw [h1, h2, hl]

theorem ctrIncrementRev_spec (r : List Nat) (hb : ∀ b ∈ r, b < 256) :
    (ctrIncrementRev r).length = r.length ∧ (∀ b ∈ ctrIncrementRev r, b < 256) ∧
      beValue (ctrIncrementRev r).reverse = (beValue r.reverse + 1) % 256 ^ r.length := by
  induction r with
  | nil => simp [ctrIncrementRev, beValue, Nat.mod_one]
  | cons b rest ih =>
      have hb256 : b < 256 := hb b (by simp)
      have hrest : ∀ x ∈ rest, x < 256 := fun x hx => hb x (by simp [hx])
      obtain ⟨hlen, hbytes, hval⟩ := ih hrest
      have hV : beValue rest.reverse < 256 ^ rest.length := by
        have := beValue_lt rest.reverse (fun x hx => hrest x (List.mem_reverse.mp hx))
        simpa using this
      by_cases hc : (b + 1) % 256 ≠ 0
      · simp only [ctrIncrementRev, if_pos hc, List.length_cons, List.reverse_cons,
          beValue_append_singleton, true_and]
        refine ⟨?_, ?_⟩
        · intro x hx
          rcases List.mem_cons.mp hx with h | h
          · omega
          · exact hrest x h
        · rw [pow_succ, Nat.mod_eq_of_lt (a := beValue rest.reverse * 256 + b + 1) (by omega)]
          omega
      · simp only [ctrIncrementRev, if_neg hc, List.length_cons, hlen, List.reverse_cons,
          beValue_append_singleton, hval, true_and]
        refine ⟨?_, ?_⟩
        · intro x hx
          rcases List.mem_cons.mp hx with h | h
          · omega
          · exact hbytes x h
        · have key : beValue rest.reverse * 256 + b + 1 = 256 * (beValue rest.reverse + 1) + 0 := by
            omega
          rw [pow_succ, Nat.mul_comm (256 ^ rest.length) 256, key,
            mul_add_mod_mul _ _ _ (by norm_num)]
          omega

/-- The counter step adds one to the big-endian value, modulo `256 ^ len`. -/
theorem ctrIncrement_spec (ctr : List Nat) (hb : ∀ b ∈ ctr, b < 256) :
    (ctrIncrement ctr).length = ctr.length ∧ (∀ b ∈ ctrIncrement ctr, b < 256) ∧
      beValue (ctrIncrement ctr) = (beValue ctr + 1) % 256 ^ ctr.length := by
  obtain ⟨hlen, hbytes, hval⟩ :=
    ctrIncrementRev_spec ctr.reverse (fun x hx => hb x (List.mem_reverse.mp hx))
  refine ⟨by simpa [ctrIncrement] using hlen, ?_, by simpa [ctrIncrement] using hval⟩
  intro x hx
  exact hbytes x (by simpa [ctrIncrement] using hx)

theorem ctrIncrement_iterate_spec (ctr : List Nat) (hb : ∀ b ∈ ctr, b < 256) (j : Nat) :
    (ctrIncrement^[j] ctr).length = ctr.length ∧ (∀ b ∈ ctrIncrement^[j] ctr, b < 256) ∧
      beValue (ctrIncrement^[j] ctr) = (beValue ctr + j) % 256 ^ ctr.length := by
  induction j with
  | zero =>
      refine ⟨rfl, hb, ?_⟩
      simp only [Function.iterate_zero, id_eq, Nat.add_zero]
      exact (Nat.mod_eq_of_lt (beValue_lt ctr hb)).symm
  | succ j ih =>
      obtain ⟨hlen, hbytes, hval⟩ := ih
      obtain ⟨hlen', hbytes', hval'⟩ := ctrIncrement_spec _ hbytes
      rw [Function.iterate_succ_apply']
      refine ⟨hlen'.trans hlen, hbytes', ?_⟩
      rw [hval', hval, hlen, Nat.mod_add_mod, Nat.add_assoc]

/-- The counter after `j` steps is the encoding of the start value plus `j`. -/
theorem ctrIncrement_iterate_eq (ctr : List Nat) (hb : ∀ b ∈ ctr, b < 256) (j : Nat) :
    ctrIncrement^[j] ctr = beBytes ctr.length ((beValue ctr + j) % 256 ^ ctr.length) := by
  obtain ⟨hlen, hbytes, hval⟩ := ctrIncrement_iterate_spec ctr hb j
  rw [← hval, ← hlen, beBytes_beValue _ hbytes]

theorem encryptBlock_length (block : List Nat → List Nat) (ctr : List Nat) :
    (encryptBlock block ctr).length = 16 := by
  simp [encryptBlock, BlockSize]

theorem encryptBlock_getD (block : List Nat → List Nat) (ctr : List Nat) (q : Nat)
    (hq : q < 16) : (encryptBlock block ctr).getD q 0 = (block ctr).getD q 0 := by
  simp [encryptBlock, BlockSize, List.getD_eq_getElem?_getD, List.getElem?_map,
    List.getElem?_range hq]

/-- Byte `i` of the stream's output: the source byte XORed with the buffered keystream
byte, or, past the buffer, with the byte of the block the counter reaches by then. -/
theorem ctrXOR_getD (block : List Nat → List Nat) (src : List Nat) :
    ∀ (ctr out : List Nat) (i : Nat), i < src.length →
      (ctrXOR block ctr out src).getD i 0 = src.getD i 0 ^^^
        (if i < out.length then out.getD i 0
         else (encryptBlock block (ctrIncrement^[(i - out.length) / 16] ctr)).getD
           ((i - out.length) % 16) 0) := by
  induction src with
  | nil => intro ctr out i hi; simp at hi
  | cons s src ih =>
      intro ctr out i hi
      cases out with
      | cons k out =>
          cases i with
          | zero => simp [ctrXOR]
          | succ i =>
              have hi' : i < src.length := by simpa using hi
              simp only [ctrXOR, List.getD_cons_succ, List.length_cons, ih ctr out i hi',
                Nat.add_lt_add_iff_right, Nat.add_sub_add_right]
      | nil =>
          cases i with
          | zero =>
              simp only [ctrXOR, List.getD_cons_zero, List.length_nil, Nat.lt_irrefl, if_false,
                Nat.sub_zero, Nat.zero_div, Function.iterate_zero, id_eq, Nat.zero_mod]
              cases h : encryptBlock block ctr <;> simp
          | succ i =>
              have hi' : i < src.length := by simpa using hi
              have htl : (encryptBlock block ctr).tail.length = 15 := by
                simp [encryptBlock_length]
              have hget : ∀ q, (encryptBlock block ctr).tail.getD q 0 =
                  (encryptBlock block ctr).getD (q + 1) 0 := by
                intro q
                cases h : encryptBlock block ctr <;> simp
              simp only [ctrXOR, List.getD_cons_succ, ih _ _ i hi', htl, hget, List.length_nil,
                Nat.not_lt_zero, if_false, Nat.sub_zero]
              by_cases h15 : i < 15
              · have h1 : (i + 1) / 16 = 0 := by omega
                have h2 : (i + 1) % 16 = i + 1 := by omega
                simp [h15, h1, h2]
              · have h1 : (i + 1) / 16 = (i - 15) / 16 + 1 := by omega
                have h2 : (i + 1) % 16 = (i - 15) % 16 := by omega
                simp only [h15, if_false, h1, h2, Function.iterate_succ_apply]

/-! ## Positional decryption -/

theorem copy_iv (iv : List Nat) (hiv : iv.length = 8) :
    copy (List.replicate BlockSize 0) iv = iv ++ List.replicate 8 0 := by
  simp [copy, BlockSize, hiv, List.take_of_length_le]

/-- Byte `i` of `NewAESCTRReader` for a non-negative offset: the keystream position is
`16 * (offset / 16) + i`. -/
theorem NewAESCTRReader_getD (keyData : KeyData)
    (hiv : keyData.IV.length = 8)
    (hivb : ∀ b ∈ keyData.IV, b < 256) (m : Nat) (c : List Nat) (i : Nat) (hi : i < c.length) :
    (XORKeyStream (aesEncrypt keyData.Key)
      (incrementIV (copy (List.replicate BlockSize 0) keyData.IV) ((m : Int).tdiv 16)) c).getD i 0
      = c.getD i 0 ^^^ ctrKeystream keyData (16 * (m / 16) + i) := by
  have htdiv : (m : Int).tdiv 16 = ((m / 16 : Nat) : Int) := rfl
  have hb0 : ∀ b ∈ keyData.IV ++ List.replicate 8 0, b < 256 := by
    intro b hb
    rcases List.mem_append.mp hb with h | h
    · exact hivb b h
    · rw [List.eq_of_mem_replicate h]; norm_num
  have hlen0 : (keyData.IV ++ List.replicate 8 0).length = 16 := by simp [hiv]
  obtain ⟨hlen, hbytes, hval⟩ := incrementIV_spec (keyData.IV ++ List.replicate 8 0) hb0 (m / 16)
  rw [htdiv, copy_iv _ hiv, XORKeyStream, ctrXOR_getD _ _ _ _ _ hi]
  simp only [List.length_nil, Nat.not_lt_zero, if_false, Nat.sub_zero]
  rw [encryptBlock_getD _ _ _ (Nat.mod_lt _ (by norm_num)), ctrIncrement_iterate_eq _ hbytes,
    hlen, hlen0, hval, hlen0, Nat.mod_add_mod, ctrKeystream]
  have h1 : (16 * (m / 16) + i) / 16 = m / 16 + i / 16 := by omega
  have h2 : (16 * (m / 16) + i) % 16 = i % 16 := by omega
  rw [h1, h2, Nat.add_assoc]

/-- C6, as the code has it: for every `KeyData` with a 16-byte key and an 8-byte IV, every
non-negative offset `start` and every non-empty `c`, `DecryptChunk` succeeds with as many
bytes as `c` has, and its byte `i` is `c[i] XOR K[16 * (start / 16) + i]`, where `K` is the
CTR keystream of the key (`ctrKeystream`); this is `K[start + i]` when `start` is a
multiple of 16. -/
theorem DecryptChunk_positional (keyData : KeyData)
    (hkey : keyData.Key.length = 16) (hiv : keyData.IV.length = 8)
    (hivb : ∀ b ∈ keyData.IV, b < 256) (start : Int) (hstart : 0 ≤ start) (c : List Nat)
    (hc : c ≠ []) :
    ∃ out, DecryptChunk c keyData start = .ok out ∧ out.length = c.length ∧
      (∀ i, i < c.length →
        out.getD i 0 = c.getD i 0 ^^^ ctrKeystream keyData (16 * (start / 16).toNat + i)) ∧
      (start % 16 = 0 → ∀ i, i < c.length →
        out.getD i 0 = c.getD i 0 ^^^ ctrKeystream keyData (start.toNat + i)) := by
  obtain ⟨m, rfl⟩ := Int.eq_ofNat_of_zero_le hstart
  have hne : c.length ≠ 0 := fun h => hc (List.length_eq_zero.mp h)
  have hpos : ∀ i, i < c.length →
      (XORKeyStream (aesEncrypt keyData.Key) (incrementIV (copy (List.replicate BlockSize 0) keyData.IV)
        ((m : Int).tdiv 16)) c).getD i 0 =
      c.getD i 0 ^^^ ctrKeystream keyData (16 * ((m : Int) / 16).toNat + i) := by
    intro i hi
    have : ((m : Int) / 16).toNat = m / 16 := by omega
    rw [this]
    exact NewAESCTRReader_getD keyData hiv hivb m c i hi
  refine ⟨_, ?_, ?_, hpos, ?_⟩
  · rw [DecryptChunk, if_neg hne, NewAESCTRReader_ok _ keyData hkey]
  · rw [XORKeyStream, ctrXOR_length]
  · intro h16 i hi
    have : (m : Int).toNat + i = 16 * ((m : Int) / 16).toNat + i := by omega
    rw [this]
    exact hpos i hi

/-- C6 (amended) under AES at offset 32 and a two-byte chunk. -/
theorem DecryptChunk_positional_witness :
    ∃ out, DecryptChunk [116, 101] testKey 32 = .ok out ∧
      out.length = [116, 101].length ∧
      (∀ i, i < [116, 101].length →
        out.getD i 0 =
          [116, 101].getD i 0 ^^^ ctrKeystream testKey (16 * ((32 : Int) / 16).toNat + i)) ∧
      ((32 : Int) % 16 = 0 → ∀ i, i < [116, 101].length →
        out.getD i 0 =
          [116, 101].getD i 0 ^^^ ctrKeystream testKey ((32 : Int).toNat + i)) :=
  DecryptChunk_positional testKey (by decide) (by decide) (by decide) 32 (by decide)
    [116, 101] (by decide)

set_option maxRecDepth 100000 in
/-- C6 as stated fails at offset 1: under AES with the all-zero key and IV, byte 0 of
`DecryptChunk([0], key, 1)` is `102 = K[0]`, while `c[0] XOR K[1 + 0]` is `233`. -/
theorem DecryptChunk_positional_counterexample :
    DecryptChunk [0] zeroKey 1 = .ok [102] ∧
      [0].getD 0 0 ^^^ ctrKeystream zeroKey (1 + 0) = 233 ∧
      ([102] : List Nat).getD 0 0 ≠ [0].getD 0 0 ^^^ ctrKeystream zeroKey (1 + 0) := by
  have h1 : DecryptChunk [0] zeroKey 1 = .ok [102] := by decide
  have h2 : [0].getD 0 0 ^^^ ctrKeystream zeroKey (1 + 0) = 233 := by decide
  exact ⟨h1, h2, by rw [h2]; decide⟩

/-! ## DownloadRange: response validation -/

theorem checkResponseStatus_of_ok (resp : Response)
    (h : resp.StatusCode = 200 ∨ resp.StatusCode = 206) : checkResponseStatus resp = none := by
  rcases h with h | h <;> simp [checkResponseStatus, h]

/-- What `DownloadRange` does once the request is built and answered with `resp`. -/
theorem DownloadRange_of_response (NewRequest : List Nat → Except FetchError Request)
    (cd : ChunkDownloader) (start end_ : Int) (req : Request) (resp : Response)
    (hreq : createRequest NewRequest cd start end_ = .ok req)
    (hsend : sendRequest cd req = .ok resp) :
    DownloadRange NewRequest cd start end_ =
      match checkResponseStatus resp with
      | some err => (.error err, 0)
      | none =>
          match getContentLength resp with
          | .error err => (.error err, 0)
          | .ok length =>
              if length < wrapInt64 (end_ - start) then
                (.error (.rangeExceeds (wrapInt64 (end_ - start)) length), 0)
              else readResponseBody resp length := by
  simp only [DownloadRange, hreq, hsend]

/-- C7: status validation comes first. `checkResponseStatus` returns an error exactly when
the status code is neither 200 nor 206, and then `DownloadRange` on that response fails with
the unexpected-status error carrying the code, without a read of the body, whatever the
headers, the body and the requested range are. -/
theorem checkResponseStatus_first (resp : Response) :
    ((∃ e, checkResponseStatus resp = some e) ↔
      (resp.StatusCode ≠ 200 ∧ resp.StatusCode ≠ 206)) ∧
    (resp.StatusCode ≠ 200 → resp.StatusCode ≠ 206 →
      checkResponseStatus resp = some (.unexpectedStatus resp.StatusCode) ∧
      ∀ (NewRequest : List Nat → Except FetchError Request) (cd : ChunkDownloader)
        (start end_ : Int) (req : Request),
        createRequest NewRequest cd start end_ = .ok req → sendRequest cd req = .ok resp →
        DownloadRange NewRequest cd start end_ =
          (.error (.unexpectedStatus resp.StatusCode), 0)) := by
  constructor
  · constructor
    · intro ⟨e, he⟩
      by_contra hcon
      have : resp.StatusCode = 200 ∨ resp.StatusCode = 206 := by
        by_cases h : resp.StatusCode = 200
        · exact Or.inl h
        · right
          by_contra h'
          exact hcon ⟨h, h'⟩
      rw [checkResponseStatus_of_ok resp this] at he
      cases he
    · intro ⟨h1, h2⟩
      exact ⟨.unexpectedStatus resp.StatusCode, by simp [checkResponseStatus, h1, h2]⟩
  · intro h1 h2
    have hchk : checkResponseStatus resp = some (.unexpectedStatus resp.StatusCode) := by
      simp [checkResponseStatus, h1, h2]
    refine ⟨hchk, ?_⟩
    intro NewRequest cd start end_ req hreq hsend
    rw [DownloadRange_of_response NewRequest cd start end_ req resp hreq hsend, hchk]

/-- C7 at a 404 response that otherwise is the one of `TestReadResponseBody`. -/
theorem checkResponseStatus_first_witness :
    DownloadRange newGET (serve { testResponse with StatusCode := 404 }) 0 20 =
      (.error (.unexpectedStatus 404), 0) :=
  ((checkResponseStatus_first { testResponse with StatusCode := 404 }).2 (by decide)
    (by decide)).2 newGET (serve { testResponse with StatusCode := 404 }) 0 20
    (setRangeHeader ⟨strGET, [], []⟩ 0 20) rfl rfl

/-- C8: `getContentLength` fails with the missing-length error when the `Content-Length`
header is absent or empty, with the invalid-length error when it does not parse as an integer
or parses to a value `≤ 0`, and otherwise returns the parsed positive integer; `"1024"`
gives 1024. -/
theorem getContentLength_cases (resp : Response) :
    (resp.Header.lookup strContentLength = none → resp.Header.Get strContentLength = []) ∧
    (resp.Header.Get strContentLength = [] →
      getContentLength resp = .error .missingContentLength) ∧
    (resp.Header.Get strContentLength ≠ [] → Atoi (resp.Header.Get strContentLength) = none →
      getContentLength resp = .error .invalidContentLength) ∧
    (∀ n, resp.Header.Get strContentLength ≠ [] →
      Atoi (resp.Header.Get strContentLength) = some n → n ≤ 0 →
      getContentLength resp = .error .invalidContentLength) ∧
    (∀ n, resp.Header.Get strContentLength ≠ [] →
      Atoi (resp.Header.Get strContentLength) = some n → 0 < n →
      getContentLength resp = .ok n) ∧
    getContentLength ⟨200, Header.Set [] strContentLength [49, 48, 50, 52], []⟩ = .ok 1024 := by
  refine ⟨?_, ?_, ?_, ?_, ?_, by decide⟩
  · intro h
    simp [Header.Get, h]
  · intro h
    simp [getContentLength, h]
  · intro h hA
    simp [getContentLength, h, hA]
  · intro n h hA hn
    simp [getContentLength, h, hA, hn]
  · intro n h hA hn
    simp [getContentLength, h, hA, not_le.mpr hn]

/-- C8 at the header value `invalid` of `TestGetContentLength`. -/
theorem getContentLength_cases_witness :
    getContentLength
      ⟨200, Header.Set [] strContentLength [105, 110, 118, 97, 108, 105, 100], []⟩ =
      .error .invalidContentLength :=
  (getContentLength_cases
    ⟨200, Header.Set [] strContentLength [105, 110, 118, 97, 108, 105, 100], []⟩).2.2.1
    (by decide) (by decide)

theorem getContentLength_pos (resp : Response) (L : Int) (h : getContentLength resp = .ok L) :
    0 < L := by
  unfold getContentLength at h
  simp only at h
  split_ifs at h
  split at h
  · cases h
  · split_ifs at h with hle
    cases h
    omega

/-- What `DownloadRange` does on a response with status 200 or 206 and declared length
`L`: the range check, then the read of the body. -/
theorem DownloadRange_of_length (NewRequest : List Nat → Except FetchError Request)
    (cd : ChunkDownloader) (start end_ : Int) (req : Request) (resp : Response) (L : Int)
    (hreq : createRequest NewRequest cd start end_ = .ok req)
    (hsend : sendRequest cd req = .ok resp)
    (hstatus : resp.StatusCode = 200 ∨ resp.StatusCode = 206)
    (hlen : getContentLength resp = .ok L) :
    DownloadRange NewRequest cd start end_ =
      if L < wrapInt64 (end_ - start) then
        (.error (.rangeExceeds (wrapInt64 (end_ - start)) L), 0)
      else readResponseBody resp L := by
  have hrun := DownloadRange_of_response NewRequest cd start end_ req resp hreq hsend
  rw [checkResponseStatus_of_ok resp hstatus, hlen] at hrun
  exact hrun

/-- C9: for a response with status 200 or 206 and declared length `L` (which is positive),
`DownloadRange` fails with the range-exceeds-content error, before any read of the body,
whenever `end - start > L`; when `end - start ≤ L` the call is the read of the body.
`end - start` is the `int64` difference of the source, which is the integer difference
whenever that fits 64 bits. -/
theorem DownloadRange_range_check (NewRequest : List Nat → Except FetchError Request)
    (cd : ChunkDownloader) (start end_ : Int) (req : Request) (resp : Response) (L : Int)
    (hreq : createRequest NewRequest cd start end_ = .ok req)
    (hsend : sendRequest cd req = .ok resp)
    (hstatus : resp.StatusCode = 200 ∨ resp.StatusCode = 206)
    (hlen : getContentLength resp = .ok L) :
    0 < L ∧
    (L < wrapInt64 (end_ - start) →
      DownloadRange NewRequest cd start end_ =
        (.error (.rangeExceeds (wrapInt64 (end_ - start)) L), 0)) ∧
    (wrapInt64 (end_ - start) ≤ L →
      DownloadRange NewRequest cd start end_ = readResponseBody resp L) ∧
    (-2 ^ 63 ≤ end_ - start → end_ - start < 2 ^ 63 →
      wrapInt64 (end_ - start) = end_ - start) := by
  have hrun := DownloadRange_of_response NewRequest cd start end_ req resp hreq hsend
  rw [checkResponseStatus_of_ok resp hstatus, hlen] at hrun
  simp only at hrun
  refine ⟨getContentLength_pos resp L hlen, ?_, ?_, ?_⟩
  · intro h
    rw [hrun, if_pos h]
  · intro h
    rw [hrun, if_neg (not_lt.mpr h)]
  · intro h1 h2
    unfold wrapInt64
    omega

/-- C9 at the second call of `TestReadResponseBody`: 41 bytes asked of a 20-byte body. -/
theorem DownloadRange_range_check_witness :
    DownloadRange newGET (serve testResponse) 0 41 = (.error (.rangeExceeds 41 20), 0) :=
  (DownloadRange_range_check newGET (serve testResponse) 0 41
    (setRangeHeader ⟨strGET, [], []⟩ 0 41) testResponse 20 rfl rfl (by decide)
    (by decide)).2.1 (by decide)

/-! ## DownloadRange: reading the body -/

theorem readLoop_delivered (length : Nat) (body : List ReadResult) :
    ∀ (data : List Nat) (reads : Nat) (bs : List Nat), delivered body = some bs →
      data.length + bs.length = length →
      (readLoop length body data reads).1 = .ok (data ++ bs) := by
  induction body with
  | nil =>
      intro data reads bs hd hl
      simp only [delivered, Option.some.injEq] at hd
      subst hd
      simp only [List.length_nil, Nat.add_zero] at hl
      simp [readLoop, readFinish, hl]
  | cons r rest ih =>
      intro data reads bs hd hl
      by_cases hlt : data.length < length
      · simp only [readLoop, if_pos hlt]
        simp only [delivered] at hd
        rcases hr : r.err with _ | e
        · rw [hr] at hd
          simp only [Option.map_eq_some'] at hd
          obtain ⟨bs', hbs', rfl⟩ := hd
          have hfit : r.data.length ≤ length - data.length := by
            simp only [List.length_append] at hl; omega
          simp only [if_pos hfit]
          rw [ih (data ++ r.data) (reads + 1) bs' hbs'
            (by simp only [List.length_append] at hl ⊢; omega)]
          simp
        · cases e with
          | EOF =>
              rw [hr] at hd
              simp only [Option.some.injEq] at hd
              subst hd
              have hfit : r.data.length ≤ length - data.length := by omega
              simp only [if_pos hfit, readFinish]
              simp [hl]
          | other id =>
              rw [hr] at hd
              cases hd
      · have hbs : bs = [] := by
          apply List.length_eq_zero.mp
          omega
        subst hbs
        simp only [List.length_nil, Nat.add_zero] at hl
        simp [readLoop, if_neg hlt, readFinish, hl]

/-- For a length `make` can allocate, `readResponseBody` is the read loop. -/
theorem readResponseBody_of_alloc (resp : Response) (L : Int) (h0 : 0 ≤ L)
    (hmax : L ≤ (maxAlloc : Int)) :
    readResponseBody resp L = readLoop L.toNat resp.Body [] 0 := by
  have hcond : ¬ (L < 0 ∨ (maxAlloc : Int) < L) := by omega
  simp only [readResponseBody, makeBytes, if_neg hcond]

/-- For a length above `maxAlloc`, `readResponseBody` panics in `make`, before any read. -/
theorem readResponseBody_panic (resp : Response) (L : Int) (hbig : (maxAlloc : Int) < L) :
    readResponseBody resp L = (.panic, 0) := by
  have hcond : L < 0 ∨ (maxAlloc : Int) < L := Or.inr hbig
  simp only [readResponseBody, makeBytes, if_pos hcond]

/-- A `readResponseBody` that returns a buffer got it from the read loop, on a length that
`make` could allocate. -/
theorem readResponseBody_ok_loop (resp : Response) (L : Int) (data : List Nat)
    (h : (readResponseBody resp L).1 = .ok data) :
    (readLoop L.toNat resp.Body [] 0).1 = .ok data ∧ L ≤ (maxAlloc : Int) := by
  by_cases hcond : L < 0 ∨ (maxAlloc : Int) < L
  · simp only [readResponseBody, makeBytes, if_pos hcond] at h
    cases h
  · simp only [readResponseBody, makeBytes, if_neg hcond] at h
    exact ⟨h, by omega⟩

/-- C10, as the code has it: for a response with status 200 or 206 whose declared length
`L` is positive and whose body delivers exactly `L` bytes before end-of-data, and a range
with `end - start ≤ L`: when `L` is at most `maxAlloc`, `DownloadRange` succeeds and returns
the body unchanged, a buffer of length `L` (also when the range asks for fewer than `L`
bytes); when `L` is above `maxAlloc`, the call panics in `make`, before any read. -/
theorem DownloadRange_returns_body (NewRequest : List Nat → Except FetchError Request)
    (cd : ChunkDownloader) (start end_ : Int) (req : Request) (resp : Response) (L : Int)
    (bs : List Nat)
    (hreq : createRequest NewRequest cd start end_ = .ok req)
    (hsend : sendRequest cd req = .ok resp)
    (hstatus : resp.StatusCode = 200 ∨ resp.StatusCode = 206)
    (hlen : getContentLength resp = .ok L)
    (hbody : delivered resp.Body = some bs) (hexact : (bs.length : Int) = L)
    (hrange : wrapInt64 (end_ - start) ≤ L) :
    (L ≤ (maxAlloc : Int) →
      (DownloadRange NewRequest cd start end_).1 = .ok bs ∧ (bs.length : Int) = L) ∧
    ((maxAlloc : Int) < L → DownloadRange NewRequest cd start end_ = (.panic, 0)) := by
  have hrun := DownloadRange_of_length NewRequest cd start end_ req resp L hreq hsend hstatus hlen
  rw [if_neg (not_lt.mpr hrange)] at hrun
  have hpos := getContentLength_pos resp L hlen
  constructor
  · intro hmax
    refine ⟨?_, hexact⟩
    rw [hrun, readResponseBody_of_alloc resp L (by omega) hmax]
    have := readLoop_delivered L.toNat resp.Body [] 0 bs hbody (by simp; omega)
    simpa using this
  · intro hbig
    rw [hrun, readResponseBody_panic resp L hbig]

/-- C10 (amended) at the last call of `TestDownloadRange`: a smaller range than the 20
bytes declared returns all 20 bytes. -/
theorem DownloadRange_returns_body_witness :
    (DownloadRange newGET (serve testResponse) 0 5).1 = .ok testBody ∧
      (testBody.length : Int) = 20 :=
  (DownloadRange_returns_body newGET (serve testResponse) 0 5
    (setRangeHeader ⟨strGET, [], []⟩ 0 5) testResponse 20 testBody rfl rfl (by decide)
    (by decide) (by decide) (by decide) (by decide)).1 (by decide)

/-- C10 as stated fails on a response that declares `2^48 + 1` bytes: the status is 200,
the declared length is positive, the body delivers exactly that many bytes and the range
`0..5` is within it, yet `DownloadRange(0, 5)` does not return the body: it panics. -/
theorem DownloadRange_returns_body_counterexample :
    hugeResponse.StatusCode = 200 ∧
      getContentLength hugeResponse = .ok (2 ^ 48 + 1) ∧
      delivered hugeResponse.Body = some (List.replicate (2 ^ 48 + 1) 0) ∧
      ((List.replicate (2 ^ 48 + 1) 0).length : Int) = 2 ^ 48 + 1 ∧
      wrapInt64 (5 - 0) ≤ 2 ^ 48 + 1 ∧
      DownloadRange newGET (serve hugeResponse) 0 5 = (.panic, 0) ∧
      (DownloadRange newGET (serve hugeResponse) 0 5).1 ≠
        .ok (List.replicate (2 ^ 48 + 1) 0) := by
  have hlen : getContentLength hugeResponse = .ok (2 ^ 48 + 1) := by decide
  have hrun : DownloadRange newGET (serve hugeResponse) 0 5 = (.panic, 0) := by
    rw [DownloadRange_of_length newGET (serve hugeResponse) 0 5
      (setRangeHeader ⟨strGET, [], []⟩ 0 5) hugeResponse (2 ^ 48 + 1) rfl rfl (Or.inl rfl) hlen,
      if_neg (by decide), readResponseBody_panic hugeResponse (2 ^ 48 + 1) (by decide)]
  refine ⟨rfl, hlen, rfl, ?_, by decide, hrun, ?_⟩
  · rw [List.length_replicate]
    norm_num
  · rw [hrun]
    exact fun h => Outcome.noConfusion h

/-! ## DownloadRange: what a successful call returns -/

theorem readFinish_ok_length (length : Nat) (data : List Nat) (reads : Nat) (out : List Nat)
    (h : (readFinish length data reads).1 = .ok out) : out.length = length := by
  unfold readFinish at h
  split_ifs at h with hne
  cases h
  exact not_not.mp hne

theorem readLoop_ok_length (length : Nat) (body : List ReadResult) :
    ∀ (data : List Nat) (reads : Nat) (out : List Nat),
      (readLoop length body data reads).1 = .ok out → out.length = length := by
  induction body with
  | nil =>
      intro data reads out h
      simp only [readLoop] at h
      split_ifs at h <;> exact readFinish_ok_length _ _ _ _ h
  | cons r rest ih =>
      intro data reads out h
      simp only [readLoop] at h
      split_ifs at h with h1 h2
      · split at h
        · exact ih _ _ _ h
        · exact readFinish_ok_length _ _ _ _ h
        · cases h
      · exact readFinish_ok_length _ _ _ _ h
      · exact readFinish_ok_length _ _ _ _ h

/-- A successful `DownloadRange` went through every check: the status is 200 or 206, the
declared length `L` is at least the `int64` difference `end - start`, and the buffer is the
result of the read of `L` bytes. -/
theorem DownloadRange_ok_inv (NewRequest : List Nat → Except FetchError Request)
    (cd : ChunkDownloader) (start end_ : Int) (req : Request) (resp : Response)
    (data : List Nat)
    (hreq : createRequest NewRequest cd start end_ = .ok req)
    (hsend : sendRequest cd req = .ok resp)
    (hok : (DownloadRange NewRequest cd start end_).1 = .ok data) :
    ∃ L, getContentLength resp = .ok L ∧ wrapInt64 (end_ - start) ≤ L ∧
      (readResponseBody resp L).1 = .ok data := by
  rw [DownloadRange_of_response NewRequest cd start end_ req resp hreq hsend] at hok
  split at hok
  · cases hok
  · split at hok
    · cases hok
    · rename_i L hL
      split_ifs at hok with hlt
      exact ⟨L, hL, not_lt.mp hlt, hok⟩

/-- C11, as the code has it: a successful `DownloadRange(start, end)` returns a buffer of
exactly the declared length `L`, and `L` is at least `end - start` (the `int64` difference):
the buffer holds the requested number of bytes or more, never fewer. -/
theorem DownloadRange_ok_length (NewRequest : List Nat → Except FetchError Request)
    (cd : ChunkDownloader) (start end_ : Int) (req : Request) (resp : Response)
    (data : List Nat)
    (hreq : createRequest NewRequest cd start end_ = .ok req)
    (hsend : sendRequest cd req = .ok resp)
    (hok : (DownloadRange NewRequest cd start end_).1 = .ok data) :
    getContentLength resp = .ok (data.length : Int) ∧
      wrapInt64 (end_ - start) ≤ (data.length : Int) := by
  obtain ⟨L, hL, hrange, hread⟩ :=
    DownloadRange_ok_inv NewRequest cd start end_ req resp data hreq hsend hok
  have hpos := getContentLength_pos resp L hL
  have hlen : data.length = L.toNat :=
    readLoop_ok_length _ _ _ _ _ (readResponseBody_ok_loop resp L data hread).1
  have hcast : (data.length : Int) = L := by omega
  rw [hcast]
  exact ⟨hL, hrange⟩

/-- C11 (amended) at the last call of `TestDownloadRange`: the range `0..5` of the
20-byte body. -/
theorem DownloadRange_ok_length_witness :
    getContentLength testResponse = .ok (testBody.length : Int) ∧
      wrapInt64 (5 - 0) ≤ (testBody.length : Int) :=
  DownloadRange_ok_length newGET (serve testResponse) 0 5 (setRangeHeader ⟨strGET, [], []⟩ 0 5)
    testResponse testBody rfl rfl (by decide)

/-- C11 as stated fails on the last call of `TestDownloadRange`: `DownloadRange(0, 5)`
with `0 ≤ 5` succeeds with the 20 bytes of the body, more than `5 - 0`. -/
theorem DownloadRange_ok_length_counterexample :
    (0 : Int) ≤ 5 ∧ (DownloadRange newGET (serve testResponse) 0 5).1 = .ok testBody ∧
      ¬ ((testBody.length : Int) ≤ 5 - 0) := by
  decide
/-! ## readResponseBody: the outcome of the read loop -/

theorem bodyBytes_append (pre rest : List ReadResult) :
    bodyBytes (pre ++ rest) = bodyBytes pre ++ bodyBytes rest := by
  induction pre with
  | nil => rfl
  | cons r pre ih => simp [bodyBytes, ih]

theorem take_prefix_append (a b : List Nat) (n : Nat) (h : a.length ≤ n) :
    (a ++ b).take n = a ++ b.take (n - a.length) := by
  rw [List.take_append_eq_append_take, List.take_of_length_le h]

/-- The loop reads a quiet part of the script that leaves the buffer short of full. -/
theorem readLoop_quiet (length : Nat) (pre : List ReadResult) :
    ∀ (rest : List ReadResult) (data : List Nat) (reads : Nat), quiet pre →
      data.length + (bodyBytes pre).length < length →
      readLoop length (pre ++ rest) data reads =
        readLoop length rest (data ++ bodyBytes pre) (reads + pre.length) := by
  induction pre with
  | nil => intro rest data reads _ _; simp [bodyBytes]
  | cons r pre ih =>
      intro rest data reads hq hlt
      have hr : r.err = none := hq r (by simp)
      have hq' : quiet pre := fun x hx => hq x (by simp [hx])
      simp only [bodyBytes, List.length_append] at hlt
      have h1 : data.length < length := by omega
      have h2 : r.data.length ≤ length - data.length := by omega
      simp only [List.cons_append, readLoop, if_pos h1, if_pos h2, hr, List.append_eq]
      rw [ih rest (data ++ r.data) (reads + 1) hq' (by simp only [List.length_append]; omega)]
      simp only [bodyBytes, List.append_assoc, List.length_cons]
      congr 1
      omega

/-- C12, as the code has it: the outcome of `readResponseBody` for a declared length `L`
on a body given as a script of read results. For `L` at most `maxAlloc` (and positive in
each of the cases): (1) a read that reports an error other than end-of-data (the reads
before it report none and leave the buffer short of full, and its bytes fit the buffer)
makes the call fail with that read error, whatever follows; (2) end-of-data with fewer than
`L` bytes read in total, reported by a read or by the end of the script, makes it fail with
the incomplete-read error for `expected = L` and `got` the bytes read; (3) otherwise, when
the buffer is filled, the call returns the first `L` bytes of the body. For `L` above
`maxAlloc` the call panics in `make`, before any read. -/
theorem readResponseBody_outcome (resp : Response) (L : Nat) :
    (L ≤ maxAlloc →
      (∀ pre r rest e, resp.Body = pre ++ r :: rest → quiet pre → r.err = some (.other e) →
        (bodyBytes pre).length < L → (bodyBytes pre).length + r.data.length ≤ L →
        (readResponseBody resp L).1 = .error (.read (.other e))) ∧
      (∀ pre r rest, resp.Body = pre ++ r :: rest → quiet pre → r.err = some .EOF →
        (bodyBytes pre).length + r.data.length < L →
        (readResponseBody resp L).1 =
          .error (.incompleteRead L ((bodyBytes pre).length + r.data.length : Nat))) ∧
      (quiet resp.Body → (bodyBytes resp.Body).length < L →
        (readResponseBody resp L).1 =
          .error (.incompleteRead L ((bodyBytes resp.Body).length : Nat))) ∧
      (∀ pre r rest, resp.Body = pre ++ r :: rest → quiet pre → (bodyBytes pre).length < L →
        (L < (bodyBytes pre).length + r.data.length ∨
          ((bodyBytes pre).length + r.data.length = L ∧ ∀ e, r.err ≠ some (.other e))) →
        (readResponseBody resp L).1 = .ok ((bodyBytes resp.Body).take L))) ∧
    (maxAlloc < L → readResponseBody resp L = (.panic, 0)) := by
  constructor
  · intro hL
    have hrun : ∀ pre rest, resp.Body = pre ++ rest → quiet pre → (bodyBytes pre).length < L →
        readResponseBody resp L = readLoop L rest (bodyBytes pre) pre.length := by
      intro pre rest hb hq hlt
      have := readLoop_quiet L pre rest [] 0 hq (by simpa using hlt)
      rw [readResponseBody_of_alloc resp L (Int.ofNat_nonneg L) (Int.ofNat_le.mpr hL),
        Int.toNat_ofNat, hb]
      simpa using this
    refine ⟨?_, ?_, ?_, ?_⟩
    · intro pre r rest e hb hq he hlt hfit
      rw [hrun pre (r :: rest) hb hq hlt]
      have h2 : r.data.length ≤ L - (bodyBytes pre).length := by omega
      simp only [readLoop, if_pos hlt, if_pos h2, he]
    · intro pre r rest hb hq he hlt
      rw [hrun pre (r :: rest) hb hq (by omega)]
      have h1 : (bodyBytes pre).length < L := by omega
      have h2 : r.data.length ≤ L - (bodyBytes pre).length := by omega
      simp only [readLoop, if_pos h1, if_pos h2, he, readFinish, List.length_append]
      rw [if_pos (by omega)]
    · intro hq hlt
      rw [hrun resp.Body [] (by simp) hq hlt]
      simp only [readLoop, if_pos hlt, readFinish]
      rw [if_pos (by omega)]
    · intro pre r rest hb hq hlt hfull
      rw [hrun pre (r :: rest) hb hq hlt, hb, bodyBytes_append]
      simp only [bodyBytes]
      rw [take_prefix_append _ _ _ (Nat.le_of_lt hlt)]
      rcases hfull with hover | ⟨hexact, hne⟩
      · have h2 : ¬ r.data.length ≤ L - (bodyBytes pre).length := by omega
        have hlen : (bodyBytes pre ++ r.data.take (L - (bodyBytes pre).length)).length = L := by
          rw [List.length_append, List.length_take, Nat.min_eq_left (by omega)]
          omega
        rw [List.take_append_of_le_length (by omega)]
        simp only [readLoop, if_pos hlt, if_neg h2, readFinish]
        rw [if_neg (not_not.mpr hlen)]
      · have h2 : r.data.length ≤ L - (bodyBytes pre).length := by omega
        have hlen : (bodyBytes pre ++ r.data).length = L := by
          rw [List.length_append]; exact hexact
        have htake : (r.data ++ bodyBytes rest).take (L - (bodyBytes pre).length) = r.data := by
          rw [List.take_append_of_le_length (by omega), List.take_of_length_le (by omega)]
        rw [htake]
        have hfin : ∀ reads, (readFinish L (bodyBytes pre ++ r.data) reads).1 =
            .ok (bodyBytes pre ++ r.data) := by
          intro reads
          rw [readFinish, if_neg (not_not.mpr hlen)]
        simp only [readLoop, if_pos hlt, if_pos h2]
        rcases hr : r.err with _ | e
        · simp only
          cases rest with
          | nil => simp only [readLoop, hlen, Nat.lt_irrefl, if_false, hfin]
          | cons r' rest' => simp only [readLoop, hlen, Nat.lt_irrefl, if_false, hfin]
        · cases e with
          | EOF => simp only [hfin]
          | other id => exact absurd hr (hne id)
  · intro hbig
    exact readResponseBody_panic resp L (Int.ofNat_lt.mpr hbig)

/-- C12 (amended) at a body that breaks off with a read error after 7 of 20 bytes. -/
theorem readResponseBody_outcome_witness :
    (readResponseBody { testResponse with
        Body := [⟨testBody.take 4, none⟩, ⟨(testBody.drop 4).take 3, some (.other 1)⟩] } 20).1 =
      .error (.read (.other 1)) :=
  ((readResponseBody_outcome { testResponse with
      Body := [⟨testBody.take 4, none⟩, ⟨(testBody.drop 4).take 3, some (.other 1)⟩] }
    20).1 (by decide)).1 [⟨testBody.take 4, none⟩] ⟨(testBody.drop 4).take 3, some (.other 1)⟩
    [] 1 rfl (by decide) rfl (by decide) (by decide)

/-- C12 as stated fails at the declared length `2^62` on a body whose first read reports
end-of-data with no bytes: the length is positive, no read reports another error and
end-of-data arrives with 0 of the `2^62` bytes read, yet the call does not fail with the
incomplete-read error: it panics in `make`, with no read. -/
theorem readResponseBody_outcome_counterexample :
    (0 : Int) < 2 ^ 62 ∧
      readResponseBody { testResponse with Body := [⟨[], some .EOF⟩] } (2 ^ 62) = (.panic, 0) ∧
      (readResponseBody { testResponse with Body := [⟨[], some .EOF⟩] } (2 ^ 62)).1 ≠
        .error (.incompleteRead (2 ^ 62) 0) := by
  have hrun : readResponseBody { testResponse with Body := [⟨[], some .EOF⟩] } (2 ^ 62) =
      (.panic, 0) := readResponseBody_panic _ _ (by decide)
  refine ⟨by decide, hrun, ?_⟩
  rw [hrun]
  exact fun h => Outcome.noConfusion h

/-! ## DownloadRange: inverted ranges -/

/-- C20, as the code has it: an inverted range is accepted. For a response with status 200
or 206, positive declared length `L` and a body that delivers exactly `L` bytes, and every
`(start, end)` with `end < start` whose difference does not overflow `int64`: when `L` is at
most `maxAlloc`, `DownloadRange` does not fail and returns the whole body (`start ≤ end` is
not enforced); when `L` is above `maxAlloc`, the call panics in `make`, before any read. -/
theorem DownloadRange_inverted_range (NewRequest : List Nat → Except FetchError Request)
    (cd : ChunkDownloader) (start end_ : Int) (req : Request) (resp : Response) (L : Int)
    (bs : List Nat)
    (hreq : createRequest NewRequest cd start end_ = .ok req)
    (hsend : sendRequest cd req = .ok resp)
    (hstatus : resp.StatusCode = 200 ∨ resp.StatusCode = 206)
    (hlen : getContentLength resp = .ok L)
    (hbody : delivered resp.Body = some bs) (hexact : (bs.length : Int) = L)
    (hinv : end_ < start) (hfit : -2 ^ 63 ≤ end_ - start) :
    (L ≤ (maxAlloc : Int) → (DownloadRange NewRequest cd start end_).1 = .ok bs) ∧
    ((maxAlloc : Int) < L → DownloadRange NewRequest cd start end_ = (.panic, 0)) := by
  have hpos := getContentLength_pos resp L hlen
  have hwrap : wrapInt64 (end_ - start) = end_ - start := by
    unfold wrapInt64
    omega
  have hrange : ¬ L < wrapInt64 (end_ - start) := by
    rw [hwrap]
    omega
  have hrun := DownloadRange_of_length NewRequest cd start end_ req resp L hreq hsend hstatus hlen
  rw [if_neg hrange] at hrun
  constructor
  · intro hmax
    rw [hrun, readResponseBody_of_alloc resp L (by omega) hmax]
    have := readLoop_delivered L.toNat resp.Body [] 0 bs hbody (by simp; omega)
    simpa using this
  · intro hbig
    rw [hrun, readResponseBody_panic resp L hbig]

/-- C20 (amended) at the range `(10, 0)` on the response of `TestReadResponseBody`. -/
theorem DownloadRange_inverted_range_witness :
    (DownloadRange newGET (serve testResponse) 10 0).1 = .ok testBody :=
  (DownloadRange_inverted_range newGET (serve testResponse) 10 0
    (setRangeHeader ⟨strGET, [], []⟩ 10 0) testResponse 20 testBody rfl rfl (by decide)
    (by decide) (by decide) (by decide) (by decide) (by decide)).1 (by decide)

/-- C20 as stated fails on a response that declares `2^48 + 1` bytes: the status is 200,
the declared length is positive, the body has exactly that many bytes and the range
`(10, 0)` is inverted without overflow, yet `DownloadRange(10, 0)` does not return the
body: it panics. -/
theorem DownloadRange_inverted_range_counterexample :
    hugeResponse.StatusCode = 200 ∧
      getContentLength hugeResponse = .ok (2 ^ 48 + 1) ∧
      delivered hugeResponse.Body = some (List.replicate (2 ^ 48 + 1) 0) ∧
      ((List.replicate (2 ^ 48 + 1) 0).length : Int) = 2 ^ 48 + 1 ∧
      (0 : Int) < 10 ∧ (-2 ^ 63 : Int) ≤ 0 - 10 ∧
      DownloadRange newGET (serve hugeResponse) 10 0 = (.panic, 0) ∧
      (DownloadRange newGET (serve hugeResponse) 10 0).1 ≠
        .ok (List.replicate (2 ^ 48 + 1) 0) := by
  have hlen : getContentLength hugeResponse = .ok (2 ^ 48 + 1) := by decide
  have hrun : DownloadRange newGET (serve hugeResponse) 10 0 = (.panic, 0) := by
    rw [DownloadRange_of_length newGET (serve hugeResponse) 10 0
      (setRangeHeader ⟨strGET, [], []⟩ 10 0) hugeResponse (2 ^ 48 + 1) rfl rfl (Or.inl rfl) hlen,
      if_neg (by decide), readResponseBody_panic hugeResponse (2 ^ 48 + 1) (by decide)]
  refine ⟨rfl, hlen, rfl, ?_, by decide, by decide, hrun, ?_⟩
  · rw [List.length_replicate]
    norm_num
  · rw [hrun]
    exact fun h => Outcome.noConfusion h

/-! ## Failing calls return no buffer -/

theorem readFinishPair_nil (length : Nat) (data : List Nat) (totalRead : Nat)
    (h : (readFinishPair length data totalRead).2 ≠ none) :
    (readFinishPair length data totalRead).1 = none := by
  unfold readFinishPair at h ⊢
  split_ifs at h ⊢
  · rfl
  · exact absurd rfl h

theorem readLoopPair_nil (length : Nat) (body : List ReadResult) :
    ∀ (data : List Nat) (totalRead : Nat), (readLoopPair length body data totalRead).2 ≠ none →
      (readLoopPair length body data totalRead).1 = none := by
  induction body with
  | nil => intro data totalRead h; exact readFinishPair_nil _ _ _ h
  | cons r rest ih =>
      intro data totalRead h
      simp only [readLoopPair] at h ⊢
      split_ifs at h ⊢ with h1 h2
      · rcases hr : r.err with _ | e
        · rw [hr] at h
          simp only at h ⊢
          exact ih _ _ h
        · cases e with
          | EOF =>
              rw [hr] at h
              simp only at h ⊢
              exact readFinishPair_nil _ _ _ h
          | other id => rfl
      · exact readFinishPair_nil _ _ _ h
      · exact readFinishPair_nil _ _ _ h

theorem writeAt_filled (acc p : List Nat) (length : Nat) :
    writeAt (acc ++ List.replicate (length - acc.length) 0) acc.length p =
      (acc ++ p) ++ List.replicate (length - (acc ++ p).length) 0 := by
  have h1 : (acc ++ List.replicate (length - acc.length) 0).take acc.length = acc := by
    rw [List.take_append_of_le_length (Nat.le_refl _), List.take_of_length_le (Nat.le_refl _)]
  have h2 : (acc ++ List.replicate (length - acc.length) 0).drop (acc.length + p.length) =
      List.replicate (length - (acc ++ p).length) 0 := by
    rw [List.drop_append, List.drop_replicate, List.length_append]
    congr 1
    omega
  rw [writeAt, h1, h2]

theorem readFinishPair_filled (length : Nat) (acc : List Nat) (reads : Nat) :
    some (readFinishPair length (acc ++ List.replicate (length - acc.length) 0) acc.length) =
      toPair (readFinish length acc reads).1 := by
  unfold readFinishPair readFinish
  split_ifs with h
  · rfl
  · have h0 : length - acc.length = 0 := by omega
    simp [toPair, h0]

/-- The pair-valued loop on the buffer agrees with `readLoop` on the bytes read so far. -/
theorem readLoopPair_eq (length : Nat) (body : List ReadResult) :
    ∀ (acc : List Nat) (reads : Nat), acc.length ≤ length →
      some (readLoopPair length body (acc ++ List.replicate (length - acc.length) 0)
          acc.length) =
        toPair (readLoop length body acc reads).1 := by
  induction body with
  | nil =>
      intro acc reads _
      simp only [readLoopPair, readLoop]
      split_ifs <;> exact readFinishPair_filled _ _ _
  | cons r rest ih =>
      intro acc reads hle
      simp only [readLoopPair, readLoop]
      split_ifs with h1 h2
      · have hlen : acc.length + r.data.length = (acc ++ r.data).length := by simp
        rw [writeAt_filled acc r.data length, hlen]
        rcases hr : r.err with _ | e
        · exact ih (acc ++ r.data) (reads + 1) (by omega)
        · cases e with
          | EOF => exact readFinishPair_filled _ _ _
          | other id => rfl
      · have hk : (r.data.take (length - acc.length)).length = length - acc.length := by
          rw [List.length_take, Nat.min_eq_left (by omega)]
        have hlen : acc.length + (r.data.take (length - acc.length)).length =
            (acc ++ r.data.take (length - acc.length)).length := by simp
        rw [writeAt_filled acc _ length, hlen]
        exact readFinishPair_filled _ _ _
      · exact readFinishPair_filled _ _ _

/-- `readResponseBodyPair` is `readResponseBody` with its result as a pair. -/
theorem readResponseBodyPair_eq (resp : Response) (length : Int) :
    readResponseBodyPair resp length = toPair (readResponseBody resp length).1 := by
  by_cases hcond : length < 0 ∨ (maxAlloc : Int) < length
  · simp only [readResponseBodyPair, readResponseBody, makeBytes, if_pos hcond, toPair]
  · simp only [readResponseBodyPair, readResponseBody, makeBytes, if_neg hcond]
    have := readLoopPair_eq length.toNat resp.Body [] 0 (by simp)
    simpa using this

/-- `DownloadRangePair` is `DownloadRange` with its result as a pair. -/
theorem DownloadRangePair_eq (NewRequest : List Nat → Except FetchError Request)
    (cd : ChunkDownloader) (start end_ : Int) :
    DownloadRangePair NewRequest cd start end_ =
      toPair (DownloadRange NewRequest cd start end_).1 := by
  cases hreq : createRequest NewRequest cd start end_ with
  | error err => simp only [DownloadRangePair, DownloadRange, hreq, toPair]
  | ok req =>
      cases hsend : sendRequest cd req with
      | error err => simp only [DownloadRangePair, DownloadRange, hreq, hsend, toPair]
      | ok resp =>
          cases hchk : checkResponseStatus resp with
          | some err => simp only [DownloadRangePair, DownloadRange, hreq, hsend, hchk, toPair]
          | none =>
              cases hlen : getContentLength resp with
              | error err =>
                  simp only [DownloadRangePair, DownloadRange, hreq, hsend, hchk, hlen, toPair]
              | ok length =>
                  simp only [DownloadRangePair, DownloadRange, hreq, hsend, hchk, hlen]
                  split_ifs with h
                  · rfl
                  · rw [readResponseBodyPair_eq]
                    cases (readResponseBody resp length).1 <;> rfl

/-- C13: atomicity on failure. On every path where `readResponseBody` or `DownloadRange`
returns an error the returned buffer is `nil`; so it is for a short body and for a read
error in mid-stream after some bytes were read. (`readResponseBody` returns unless `make`
panics, which is for a negative length and for one above `maxAlloc`.) -/
theorem error_returns_nil_buffer :
    (∀ resp length r, readResponseBodyPair resp length = some r → r.2 ≠ none → r.1 = none) ∧
    (∀ NewRequest cd start end_ r, DownloadRangePair NewRequest cd start end_ = some r →
      r.2 ≠ none → r.1 = none) ∧
    (∀ resp length, readResponseBodyPair resp length = none ↔
      (length < 0 ∨ (maxAlloc : Int) < length)) ∧
    DownloadRangePair newGET (serve { testResponse with Body := [⟨testBody.take 7, none⟩] }) 0 5 =
      some (none, some (.incompleteRead 20 7)) ∧
    DownloadRangePair newGET (serve { testResponse with
      Body := [⟨testBody.take 7, none⟩, ⟨[], some (.other 1)⟩] }) 0 5 =
      some (none, some (.read (.other 1))) := by
  have hbody : ∀ resp length r, readResponseBodyPair resp length = some r → r.2 ≠ none →
      r.1 = none := by
    intro resp length r hr h
    unfold readResponseBodyPair at hr
    cases hm : makeBytes length with
    | none =>
        rw [hm] at hr
        cases hr
    | some data =>
        rw [hm] at hr
        cases hr
        exact readLoopPair_nil _ _ _ _ h
  refine ⟨hbody, ?_, ?_, by decide, by decide⟩
  · intro NewRequest cd start end_ r hr h
    cases hreq : createRequest NewRequest cd start end_ with
    | error err =>
        simp only [DownloadRangePair, hreq] at hr
        cases hr
        rfl
    | ok req =>
        cases hsend : sendRequest cd req with
        | error err =>
            simp only [DownloadRangePair, hreq, hsend] at hr
            cases hr
            rfl
        | ok resp =>
            cases hchk : checkResponseStatus resp with
            | some err =>
                simp only [DownloadRangePair, hreq, hsend, hchk] at hr
                cases hr
                rfl
            | none =>
                cases hlen : getContentLength resp with
                | error err =>
                    simp only [DownloadRangePair, hreq, hsend, hchk, hlen] at hr
                    cases hr
                    rfl
                | ok length =>
                    simp only [DownloadRangePair, hreq, hsend, hchk, hlen] at hr
                    split_ifs at hr with hlt
                    · cases hr
                      rfl
                    · rcases hp : readResponseBodyPair resp length with _ | ⟨data, _ | err⟩
                      · rw [hp] at hr
                        cases hr
                      · rw [hp] at hr
                        cases hr
                        exact absurd rfl h
                      · rw [hp] at hr
                        cases hr
                        rfl
  · intro resp length
    by_cases hcond : length < 0 ∨ (maxAlloc : Int) < length
    · have hrun : readResponseBodyPair resp length = none := by
        simp only [readResponseBodyPair, makeBytes, if_pos hcond]
      exact ⟨fun _ => hcond, fun _ => hrun⟩
    · have hrun : readResponseBodyPair resp length =
          some (readLoopPair length.toNat resp.Body (List.replicate length.toNat 0) 0) := by
        simp only [readResponseBodyPair, makeBytes, if_neg hcond]
      rw [hrun]
      exact ⟨fun h => Option.noConfusion h, fun h => absurd h hcond⟩

/-- C13 at a body of 7 of the 20 declared bytes followed by a read error: the call fails
and returns no buffer. -/
theorem error_returns_nil_buffer_witness :
    readResponseBodyPair { testResponse with
        Body := [⟨testBody.take 7, none⟩, ⟨[], some (.other 1)⟩] } 20 =
      some (none, some (.read (.other 1))) ∧
    ((none, some (.read (.other 1))) : GoResult).1 = none :=
  ⟨by decide, error_returns_nil_buffer.1 { testResponse with
      Body := [⟨testBody.take 7, none⟩, ⟨[], some (.other 1)⟩] } 20
    (none, some (.read (.other 1))) (by decide) (by decide)⟩
/-! ## The counter block handed to the CTR stream -/

theorem beValue_append (a b : List Nat) :
    beValue (a ++ b) = beValue a * 256 ^ b.length + beValue b := by
  induction b using List.reverseRecOn with
  | nil => simp [beValue]
  | append_singleton b x ih =>
      rw [← List.append_assoc, beValue_append_singleton, ih, beValue_append_singleton,
        List.length_append, List.length_singleton, pow_succ]
      ring

theorem beBytes_lt (len v : Nat) : ∀ b ∈ beBytes len v, b < 256 := by
  induction len generalizing v with
  | zero => intro b hb; simp [beBytes] at hb
  | succ len ih =>
      intro b hb
      rcases List.mem_append.mp hb with h | h
      · exact ih _ b h
      · have : b = v % 256 := by simpa using h
        omega

theorem beValue_beBytes (len v : Nat) : beValue (beBytes len v) = v % 256 ^ len := by
  induction len generalizing v with
  | zero => simp [beBytes, beValue, Nat.mod_one]
  | succ len ih =>
      rw [beBytes, beValue_append_singleton, ih, pow_succ, Nat.mul_comm (256 ^ len) 256,
        Nat.mod_mul]
      omega

/-- Byte sequences of one length with one big-endian value are equal. -/
theorem eq_of_beValue_eq (a b : List Nat) (ha : ∀ x ∈ a, x < 256) (hb : ∀ x ∈ b, x < 256)
    (hlen : a.length = b.length) (hval : beValue a = beValue b) : a = b := by
  rw [← beBytes_beValue a ha, ← beBytes_beValue b hb, hlen, hval]

theorem beValue_replicate_zero (n : Nat) : beValue (List.replicate n 0) = 0 := by
  induction n with
  | zero => rfl
  | succ n ih => rw [List.replicate_succ', beValue_append_singleton, ih]

theorem copy_bytes (n : Nat) (src : List Nat) (hb : ∀ b ∈ src, b < 256) :
    ∀ b ∈ copy (List.replicate n 0) src, b < 256 := by
  intro b hmem
  rcases List.mem_append.mp hmem with h | h
  · exact hb b (List.mem_of_mem_take h)
  · rw [List.eq_of_mem_replicate (List.mem_of_mem_drop h)]
    norm_num

theorem copy_length (n : Nat) (src : List Nat) :
    (copy (List.replicate n 0) src).length = n := by
  simp only [copy, List.length_append, List.length_take, List.length_drop,
    List.length_replicate]
  omega

/-- C14: for every `KeyData` with an 8-byte IV and every non-negative `int64` offset, the
counter block `NewAESCTRReader` hands to the CTR stream is the IV in bytes 0..7 followed by
the 8-byte big-endian encoding of `offset / 16` in bytes 8..15: the carry of the increment
does not reach the IV. -/
theorem initial_counter_block (keyData : KeyData) (hiv : keyData.IV.length = 8)
    (hivb : ∀ b ∈ keyData.IV, b < 256) (offset : Int) (h0 : 0 ≤ offset)
    (h63 : offset < 2 ^ 63) :
    incrementIV (copy (List.replicate BlockSize 0) keyData.IV) (offset.tdiv 16) =
      keyData.IV ++ beBytes 8 (offset / 16).toNat ∧
    (incrementIV (copy (List.replicate BlockSize 0) keyData.IV) (offset.tdiv 16)).take 8 =
      keyData.IV ∧
    (∀ data, keyData.Key.length = 16 → NewAESCTRReader data keyData offset =
      .ok (XORKeyStream (aesEncrypt keyData.Key)
        (keyData.IV ++ beBytes 8 (offset / 16).toNat) data)) := by
  obtain ⟨m, rfl⟩ := Int.eq_ofNat_of_zero_le h0
  have hm : m < 2 ^ 63 := by exact_mod_cast h63
  have htdiv : (m : Int).tdiv 16 = ((m / 16 : Nat) : Int) := rfl
  have hnat : ((m : Int) / 16).toNat = m / 16 := by omega
  have hb0 : ∀ b ∈ keyData.IV ++ List.replicate 8 0, b < 256 := by
    rw [← copy_iv _ hiv]
    exact copy_bytes _ _ hivb
  obtain ⟨hlen, hbytes, hval⟩ := incrementIV_spec (keyData.IV ++ List.replicate 8 0) hb0 (m / 16)
  have hV : beValue keyData.IV < 256 ^ 8 := by
    have := beValue_lt keyData.IV hivb
    rwa [hiv] at this
  have hn : m / 16 < 256 ^ 8 := by
    have : (256 : Nat) ^ 8 = 2 ^ 64 := by norm_num
    omega
  have heq : incrementIV (copy (List.replicate BlockSize 0) keyData.IV) ((m : Int).tdiv 16) =
      keyData.IV ++ beBytes 8 (m / 16) := by
    rw [htdiv, copy_iv _ hiv]
    apply eq_of_beValue_eq _ _ hbytes
    · intro x hx
      rcases List.mem_append.mp hx with h | h
      · exact hivb x h
      · exact beBytes_lt _ _ x h
    · rw [hlen]
      simp [hiv, beBytes_length]
    · rw [hval, beValue_append, beValue_append, beValue_replicate_zero, beValue_beBytes,
        beBytes_length, List.length_replicate, List.length_append, hiv, List.length_replicate,
        Nat.mod_eq_of_lt hn, Nat.add_zero]
      apply Nat.mod_eq_of_lt
      have : (256 : Nat) ^ (8 + 8) = 256 ^ 8 * 256 ^ 8 := by rw [pow_add]
      rw [this]
      nlinarith
  rw [hnat]
  refine ⟨heq, ?_, ?_⟩
  · rw [heq, List.take_append_of_le_length (by omega), List.take_of_length_le (by omega)]
  · intro data hkey
    rw [NewAESCTRReader_ok data keyData hkey, heq]

/-- C14 at the key data of the tests and offset 4128 (block 258). -/
theorem initial_counter_block_witness :
    incrementIV (copy (List.replicate BlockSize 0) testKey.IV) ((4128 : Int).tdiv 16) =
      testKey.IV ++ beBytes 8 ((4128 : Int) / 16).toNat ∧
    (incrementIV (copy (List.replicate BlockSize 0) testKey.IV) ((4128 : Int).tdiv 16)).take 8 =
      testKey.IV ∧
    (∀ data, testKey.Key.length = 16 → NewAESCTRReader data testKey 4128 =
      .ok (XORKeyStream (aesEncrypt testKey.Key)
        (testKey.IV ++ beBytes 8 ((4128 : Int) / 16).toNat) data)) :=
  initial_counter_block testKey (by decide) (by decide) 4128 (by decide) (by decide)

/-! ## Offsets inside a block, empty input and negative offsets -/

/-- C15: the within-block part of the offset is ignored. For every `KeyData`, every `c` and
every non-negative offset, `NewAESCTRReader(c, key, offset)` is
`NewAESCTRReader(c, key, offset - offset mod 16)`: the keystream starts at the boundary of
block `offset / 16` and is applied from `c[0]`. -/
theorem NewAESCTRReader_block_aligned (keyData : KeyData) (c : List Nat) (offset : Int)
    (h0 : 0 ≤ offset) :
    NewAESCTRReader c keyData offset = NewAESCTRReader c keyData (offset - offset % 16) ∧
      (offset - offset % 16).tdiv 16 = offset.tdiv 16 := by
  have htdiv : (offset - offset % 16).tdiv 16 = offset.tdiv 16 := by
    rw [Int.tdiv_eq_ediv (by omega) (by norm_num), Int.tdiv_eq_ediv h0 (by norm_num)]
    omega
  refine ⟨?_, htdiv⟩
  simp only [NewAESCTRReader, htdiv]

/-- C15 at offset 37 (block 2, byte 5 of the block). -/
theorem NewAESCTRReader_block_aligned_witness :
    NewAESCTRReader [116, 101, 115, 116] testKey 37 =
        NewAESCTRReader [116, 101, 115, 116] testKey (37 - 37 % 16) ∧
      ((37 : Int) - 37 % 16).tdiv 16 = (37 : Int).tdiv 16 :=
  NewAESCTRReader_block_aligned testKey [116, 101, 115, 116] 37 (by decide)

/-- C17: for every `KeyData` with a 16-byte key, every `data` (the empty one included) and
every offset, `NewAESCTRReader` returns no error and an output as long as `data`; on the
empty input the result is empty. -/
theorem NewAESCTRReader_length (keyData : KeyData) (hkey : keyData.Key.length = 16)
    (data : List Nat) (offset : Int) :
    (∃ out, NewAESCTRReader data keyData offset = .ok out ∧ out.length = data.length) ∧
      NewAESCTRReader [] keyData offset = .ok [] := by
  constructor
  · refine ⟨_, NewAESCTRReader_ok data keyData hkey offset, ?_⟩
    rw [XORKeyStream, ctrXOR_length]
  · rw [NewAESCTRReader_ok [] keyData hkey offset]
    rfl

/-- C17 at the key data of the tests and the empty input. -/
theorem NewAESCTRReader_length_witness :
    (∃ out, NewAESCTRReader [] testKey 0 = .ok out ∧ out.length = ([] : List Nat).length) ∧
      NewAESCTRReader [] testKey 0 = .ok [] :=
  NewAESCTRReader_length testKey (by decide) [] 0

theorem incrementIV_nonpos (iv : List Nat) (n : Int) (hn : n ≤ 0) : incrementIV iv n = iv := by
  rw [incrementIV_eq_loop, incrementIVLoop_nonpos _ _ _ hn]

/-- C19: negative offsets are not rejected and do not move the counter. For every `KeyData`
with a 16-byte key, every non-empty chunk `c` and every offset `< 0`, `DecryptChunk`
succeeds and equals `DecryptChunk(c, key, 0)`, because `incrementIV` returns an unchanged
copy of the block for every `n ≤ 0`. -/
theorem DecryptChunk_negative_offset (keyData : KeyData) (hkey : keyData.Key.length = 16)
    (c : List Nat) (hc : c ≠ []) (offset : Int) (hneg : offset < 0) :
    (∃ out, DecryptChunk c keyData offset = .ok out ∧ DecryptChunk c keyData 0 = .ok out) ∧
      (∀ (iv : List Nat) (n : Int), n ≤ 0 → incrementIV iv n = iv) := by
  have hne : c.length ≠ 0 := fun h => hc (List.length_eq_zero.mp h)
  have htdiv : offset.tdiv 16 ≤ 0 := by
    have h1 : offset.tdiv 16 = -((-offset).tdiv 16) := by
      rw [Int.neg_tdiv, neg_neg]
    have h2 : 0 ≤ (-offset).tdiv 16 := Int.tdiv_nonneg (by omega) (by norm_num)
    omega
  refine ⟨⟨XORKeyStream (aesEncrypt keyData.Key)
    (copy (List.replicate BlockSize 0) keyData.IV) c, ?_, ?_⟩, incrementIV_nonpos⟩
  · rw [DecryptChunk, if_neg hne, NewAESCTRReader_ok c keyData hkey offset,
      incrementIV_nonpos _ _ htdiv]
  · rw [DecryptChunk, if_neg hne, NewAESCTRReader_ok c keyData hkey 0,
      incrementIV_nonpos _ _ (by decide)]

/-- C19 at offset `-100`. -/
theorem DecryptChunk_negative_offset_witness :
    (∃ out, DecryptChunk [116, 101, 115, 116] testKey (-100) = .ok out ∧
        DecryptChunk [116, 101, 115, 116] testKey 0 = .ok out) ∧
      (∀ (iv : List Nat) (n : Int), n ≤ 0 → incrementIV iv n = iv) :=
  DecryptChunk_negative_offset testKey (by decide) [116, 101, 115, 116] (by decide) (-100)
    (by decide)
/-! ## Decrypting chunk by chunk -/

theorem ext_getD (a b : List Nat) (hlen : a.length = b.length)
    (h : ∀ i, i < a.length → a.getD i 0 = b.getD i 0) : a = b := by
  apply List.ext_getElem hlen
  intro i h1 h2
  have := h i h1
  rwa [List.getD_eq_getElem _ _ h1, List.getD_eq_getElem _ _ h2] at this

/-- The stream on `a ++ b`, for `a` of `k` whole blocks, is the stream on `a` followed by the
stream on `b` with the counter `k` steps further. -/
theorem XORKeyStream_append (block : List Nat → List Nat) (ctr a b : List Nat) (k : Nat)
    (ha : a.length = 16 * k) :
    XORKeyStream block ctr (a ++ b) =
      XORKeyStream block ctr a ++ XORKeyStream block (ctrIncrement^[k] ctr) b := by
  have hXa : (XORKeyStream block ctr a).length = a.length := by
    rw [XORKeyStream, ctrXOR_length]
  have hX : ∀ (c src : List Nat) (i : Nat), i < src.length →
      (XORKeyStream block c src).getD i 0 =
        src.getD i 0 ^^^ (encryptBlock block (ctrIncrement^[i / 16] c)).getD (i % 16) 0 := by
    intro c src i hi
    rw [XORKeyStream, ctrXOR_getD _ _ _ _ _ hi]
    simp only [List.length_nil, Nat.not_lt_zero, if_false, Nat.sub_zero]
  apply ext_getD
  · simp [XORKeyStream, ctrXOR_length]
  · intro i hi
    have hi' : i < (a ++ b).length := by simpa [XORKeyStream, ctrXOR_length] using hi
    rw [hX ctr (a ++ b) i hi']
    by_cases hlt : i < a.length
    · rw [List.getD_append (XORKeyStream block ctr a) _ 0 i (by rw [hXa]; exact hlt),
        List.getD_append a b 0 i hlt, hX ctr a i hlt]
    · have hge : a.length ≤ i := not_lt.mp hlt
      have hib : i - a.length < b.length := by
        simp only [List.length_append] at hi'; omega
      rw [List.getD_append_right (XORKeyStream block ctr a) _ 0 i (by rw [hXa]; exact hge),
        List.getD_append_right a b 0 i hge, hXa, hX _ b _ hib]
      have h1 : i / 16 = (i - a.length) / 16 + k := by omega
      have h2 : i % 16 = (i - a.length) % 16 := by omega
      rw [h1, h2, Function.iterate_add_apply]

/-- The counter of offset block `n + k` is the counter of block `n` after `k` steps. -/
theorem incrementIV_add (iv : List Nat) (hb : ∀ b ∈ iv, b < 256) (n k : Nat) :
    incrementIV iv ((n + k : Nat) : Int) = ctrIncrement^[k] (incrementIV iv (n : Int)) := by
  obtain ⟨hlen1, hb1, hval1⟩ := incrementIV_spec iv hb (n + k)
  obtain ⟨hlen2, hb2, hval2⟩ := incrementIV_spec iv hb n
  obtain ⟨hlen3, hb3, hval3⟩ := ctrIncrement_iterate_spec _ hb2 k
  apply eq_of_beValue_eq _ _ hb1 hb3
  · rw [hlen1, hlen3, hlen2]
  · rw [hval1, hval3, hval2, hlen2, Nat.mod_add_mod, Nat.add_assoc]

/-- C16: block-aligned chunks compose. For every `KeyData` with a 16-byte key, every
non-negative offset (the multiples of 16 among them), every `a` whose length is a positive
multiple of 16 and every non-empty `b`, `DecryptChunk(a ++ b, key, offset)` is
`DecryptChunk(a, key, offset)` followed by `DecryptChunk(b, key, offset + len(a))`. -/
theorem DecryptChunk_append (keyData : KeyData) (hkey : keyData.Key.length = 16)
    (hivb : ∀ b ∈ keyData.IV, b < 256) (offset : Int) (h0 : 0 ≤ offset) (a b : List Nat)
    (ha : a ≠ []) (ha16 : a.length % 16 = 0) (hb : b ≠ []) :
    ∃ x y, DecryptChunk a keyData offset = .ok x ∧
      DecryptChunk b keyData (offset + a.length) = .ok y ∧
      DecryptChunk (a ++ b) keyData offset = .ok (x ++ y) := by
  obtain ⟨m, rfl⟩ := Int.eq_ofNat_of_zero_le h0
  have hane : a.length ≠ 0 := fun h => ha (List.length_eq_zero.mp h)
  have hbne : b.length ≠ 0 := fun h => hb (List.length_eq_zero.mp h)
  have habne : (a ++ b).length ≠ 0 := by simp only [List.length_append]; omega
  have ht1 : (m : Int).tdiv 16 = ((m / 16 : Nat) : Int) := rfl
  have ht2 : ((m : Int) + (a.length : Int)).tdiv 16 = ((m / 16 + a.length / 16 : Nat) : Int) := by
    rw [Int.tdiv_eq_ediv (by omega) (by norm_num)]
    omega
  have hiv0 := copy_bytes BlockSize keyData.IV hivb
  refine ⟨XORKeyStream (aesEncrypt keyData.Key)
      (incrementIV (copy (List.replicate BlockSize 0) keyData.IV) ((m : Int).tdiv 16)) a,
    XORKeyStream (aesEncrypt keyData.Key)
      (incrementIV (copy (List.replicate BlockSize 0) keyData.IV)
        (((m : Int) + (a.length : Int)).tdiv 16)) b, ?_, ?_, ?_⟩
  · rw [DecryptChunk, if_neg hane, NewAESCTRReader_ok a keyData hkey]
  · rw [DecryptChunk, if_neg hbne, NewAESCTRReader_ok b keyData hkey]
  · rw [DecryptChunk, if_neg habne, NewAESCTRReader_ok _ keyData hkey, ht1, ht2,
      incrementIV_add _ hiv0,
      XORKeyStream_append _ _ a b (a.length / 16) (by omega)]

/-- C16 under AES at offset 32, a one-block chunk followed by a two-byte chunk. -/
theorem DecryptChunk_append_witness :
    ∃ x y, DecryptChunk (List.range 16) testKey 32 = .ok x ∧
      DecryptChunk [116, 101] testKey (32 + ((List.range 16).length : Int)) = .ok y ∧
      DecryptChunk (List.range 16 ++ [116, 101]) testKey 32 = .ok (x ++ y) :=
  DecryptChunk_append testKey (by decide) (by decide) 32 (by decide) (List.range 16) [116, 101]
    (by decide) (by decide) (by decide)
/-! ## Key derivation loses no information -/

/-- The key data derived from the encoding of a 32-byte token. -/
theorem ParseKeyFromBase64_EncodeToString (d : List Nat) (hlen : d.length = 32)
    (hbytes : ∀ b ∈ d, b < 256) :
    ParseKeyFromBase64 (EncodeToString d) =
      .ok ⟨(List.range 16).map fun i => d.getD i 0 ^^^ d.getD (i + 16) 0,
        (d.drop 16).take 8, (d.drop 24).take 8⟩ := by
  have hiv : ((d.drop 16).take 8).length = 8 := by simp [hlen]
  have hmac : ((d.drop 24).take 8).length = 8 := by simp [hlen]
  simp only [ParseKeyFromBase64, DecodeString_EncodeToString d hbytes, hlen, ne_eq,
    not_true_eq_false, if_false, copy_full 8 _ hiv, copy_full 8 _ hmac]

theorem map_getD_range (d : List Nat) (n : Nat) (h : n ≤ d.length) :
    ((List.range n).map fun i => d.getD i 0) = d.take n := by
  apply List.ext_getElem
  · simp [h]
  · intro i h1 h2
    have hi : i < n := by simpa using h1
    simp only [List.getElem_map, List.getElem_range, List.getElem_take]
    exact List.getD_eq_getElem _ _ (by omega)

/-- The token is rebuilt from the key data that `ParseKeyFromBase64` derives from it. -/
theorem recoverToken_parsed (d : List Nat) (hlen : d.length = 32) :
    recoverToken ⟨(List.range 16).map fun i => d.getD i 0 ^^^ d.getD (i + 16) 0,
        (d.drop 16).take 8, (d.drop 24).take 8⟩ = d ∧
      (d.drop 16).take 8 ++ (d.drop 24).take 8 = d.drop 16 := by
  have htail : (d.drop 16).take 8 ++ (d.drop 24).take 8 = d.drop 16 := by
    have h24 : d.drop 24 = (d.drop 16).drop 8 := by rw [List.drop_drop]
    rw [h24, List.take_of_length_le (l := (d.drop 16).drop 8) (by simp [hlen]),
      List.take_append_drop]
  refine ⟨?_, htail⟩
  simp only [recoverToken, htail]
  have hkey : ((List.range 16).map fun i =>
      ((List.range 16).map fun i => d.getD i 0 ^^^ d.getD (i + 16) 0).getD i 0 ^^^
        (d.drop 16).getD i 0) = (List.range 16).map fun i => d.getD i 0 := by
    apply List.map_congr_left
    intro i hi
    have hi16 : i < 16 := List.mem_range.mp hi
    have h1 : ((List.range 16).map fun i => d.getD i 0 ^^^ d.getD (i + 16) 0).getD i 0 =
        d.getD i 0 ^^^ d.getD (i + 16) 0 := by
      simp [List.getD_eq_getElem?_getD, List.getElem?_map, List.getElem?_range hi16]
    have h2 : (d.drop 16).getD i 0 = d.getD (i + 16) 0 := by
      simp [List.getD_eq_getElem?_getD, List.getElem?_drop, Nat.add_comm]
    rw [h1, h2, Nat.xor_cancel_right]
  rw [hkey, map_getD_range d 16 (by omega), List.take_append_drop]

/-- C18: key derivation loses no information on the key data as a whole. If the encodings of
two 32-byte tokens `d1`, `d2` parse to key data with equal `Key`, `IV` and `MetaMAC`, then
`d1 = d2`; the token is recovered from the key data: `d[16:32] = IV ++ MetaMAC` and
`d[i] = Key[i] XOR (IV ++ MetaMAC)[i]` for `i` in `0..15`. -/
theorem ParseKeyFromBase64_injective (d1 d2 : List Nat) (h1 : d1.length = 32)
    (h2 : d2.length = 32) (hb1 : ∀ b ∈ d1, b < 256) (hb2 : ∀ b ∈ d2, b < 256)
    (k1 k2 : KeyData) (hk1 : ParseKeyFromBase64 (EncodeToString d1) = .ok k1)
    (hk2 : ParseKeyFromBase64 (EncodeToString d2) = .ok k2)
    (hkey : k1.Key = k2.Key) (hiv : k1.IV = k2.IV) (hmac : k1.MetaMAC = k2.MetaMAC) :
    d1 = d2 ∧ recoverToken k1 = d1 ∧ d1.drop 16 = k1.IV ++ k1.MetaMAC ∧
      ∀ i, i < 16 → d1.getD i 0 = k1.Key.getD i 0 ^^^ (k1.IV ++ k1.MetaMAC).getD i 0 := by
  rw [ParseKeyFromBase64_EncodeToString d1 h1 hb1] at hk1
  rw [ParseKeyFromBase64_EncodeToString d2 h2 hb2] at hk2
  simp only [Except.ok.injEq] at hk1 hk2
  have hr1 := recoverToken_parsed d1 h1
  have hr2 := recoverToken_parsed d2 h2
  rw [hk1] at hr1
  rw [hk2] at hr2
  have hk : k1 = k2 := by
    cases k1; cases k2
    simp only at hkey hiv hmac
    simp [hkey, hiv, hmac]
  refine ⟨?_, hr1.1, ?_, ?_⟩
  · rw [← hr1.1, ← hr2.1, hk]
  · rw [← hk1]; exact hr1.2.symm
  · intro i hi
    have hrec := hr1.1
    have hget : (recoverToken k1).getD i 0 =
        k1.Key.getD i 0 ^^^ (k1.IV ++ k1.MetaMAC).getD i 0 := by
      have hlen : ((List.range 16).map fun i =>
          k1.Key.getD i 0 ^^^ (k1.IV ++ k1.MetaMAC).getD i 0).length = 16 := by simp
      rw [recoverToken, List.getD_append _ _ _ _ (by rw [hlen]; exact hi)]
      simp [List.getD_eq_getElem?_getD, List.getElem?_map, List.getElem?_range hi]
    rw [← hget, hrec]

/-- C18 at the token `0, 1, ..., 31`, whose key data is `Key = 16^16`,
`IV = 16, ..., 23`, `MetaMAC = 24, ..., 31`. -/
theorem ParseKeyFromBase64_injective_witness :
    List.range 32 = List.range 32 ∧
      recoverToken ⟨List.replicate 16 16, [16, 17, 18, 19, 20, 21, 22, 23],
        [24, 25, 26, 27, 28, 29, 30, 31]⟩ = List.range 32 ∧
      (List.range 32).drop 16 =
        [16, 17, 18, 19, 20, 21, 22, 23] ++ [24, 25, 26, 27, 28, 29, 30, 31] ∧
      ∀ i, i < 16 → (List.range 32).getD i 0 =
        (List.replicate 16 16).getD i 0 ^^^
          ([16, 17, 18, 19, 20, 21, 22, 23] ++ [24, 25, 26, 27, 28, 29, 30, 31]).getD i 0 :=
  ParseKeyFromBase64_injective (List.range 32) (List.range 32) (by decide) (by decide)
    (by decide) (by decide)
    ⟨List.replicate 16 16, [16, 17, 18, 19, 20, 21, 22, 23], [24, 25, 26, 27, 28, 29, 30, 31]⟩
    ⟨List.replicate 16 16, [16, 17, 18, 19, 20, 21, 22, 23], [24, 25, 26, 27, 28, 29, 30, 31]⟩
    (by decide) (by decide) rfl rfl rfl
end MegaStreaming
